import Mathlib

/-!
Verification of the release-notes synchronization script
(`update-release-notes.js`).

JavaScript strings are modelled as `List Char`.  The script's text
transformations (`parseChangelog`, `insertReleaseIntoDocs`,
`removeDuplicateHeaders`) and the control flow of `updateReleaseNotes`
are translated directly from the source.  File reads are modelled by
`Option (List Char)` arguments (`none` = the read fails); note that the
source's `readFile` helper calls `process.exit(1)` itself on a failed
read, so a failed read of either file terminates the process — the
`try/catch` around the destination read in `updateReleaseNotes` can
never fire, because `readFile` never throws.
-/

/-- The newline character used by `split("\n")` and `join("\n")`. -/
def nl : Char := '\n'

/-- JavaScript `trim()` whitespace test (ASCII fragment). -/
def isWS (c : Char) : Bool := c.isWhitespace

/-- Remove leading whitespace (the left half of `trim()`). -/
def trimL (s : List Char) : List Char := s.dropWhile isWS

/-- Remove trailing whitespace (the right half of `trim()`). -/
def trimR (s : List Char) : List Char := (s.reverse.dropWhile isWS).reverse

/-- JavaScript `s.trim()`. -/
def trim (s : List Char) : List Char := trimR (trimL s)

/-- JavaScript `s.split("\n")` (always returns at least one segment). -/
def splitNl : List Char → List (List Char)
  | [] => [[]]
  | c :: cs =>
    if c = nl then [] :: splitNl cs
    else
      match splitNl cs with
      | [] => [[c]]
      | l :: ls => (c :: l) :: ls

/-- JavaScript `lines.join("\n")`. -/
def unlines : List (List Char) → List Char
  | [] => []
  | [l] => l
  | l :: ls => l ++ nl :: unlines ls

/-- JavaScript `s.startsWith(p)`. -/
def startsWith (s p : List Char) : Bool := p.isPrefixOf s

/-- JavaScript `s.includes(p)` (substring containment). -/
def strIncludes : List Char → List Char → Bool
  | [], p => p.isEmpty
  | c :: t, p => p.isPrefixOf (c :: t) || strIncludes t p

/-- The version-header marker `"## ["`. -/
def headerMark : List Char := "## [".toList

/-- The Overview section marker `"## Overview"`. -/
def ovMark : List Char := "## Overview".toList

/-- The front-matter delimiter `"---"`. -/
def dashes : List Char := "---".toList

/-- Shape of an optional front-matter block at the top of the destination:
either absent, or an opening line trimming to `---`, body lines none of
which trim to `---`, and a closing line trimming to `---` (the insertion
loop toggles its `inFrontmatter` flag on exactly such lines). -/
def FrontMatter (fm : List (List Char)) : Prop :=
  fm = [] ∨ ∃ f b g, fm = f :: b ++ [g] ∧ trim f = dashes ∧ trim g = dashes ∧
    ∀ l ∈ b, trim l ≠ dashes

/-- The record returned by `parseChangelog`. -/
structure Entry where
  version : List Char
  content : List Char
  full : List Char
deriving DecidableEq

/-- The scan for the first line starting with `"## ["`; mirrors the
`inLatestVersion = false` phase of the loop in `parseChangelog`. -/
def findFirstHeader : List (List Char) → Option (List Char × List (List Char))
  | [] => none
  | l :: ls => if startsWith l headerMark then some (l, ls) else findFirstHeader ls

/-- The `inLatestVersion = true` phase of the loop in `parseChangelog`:
collect lines until the next `"## ["` line (exclusive) or end of input. -/
def collectSection : List (List Char) → List (List Char)
  | [] => []
  | l :: ls => if startsWith l headerMark then [] else l :: collectSection ls

/-- `parseChangelog(changelogContent)` from the source: extract the first
version section; `version` is the trimmed header line, `content` the
body with `"## ["` lines filtered out, joined and trimmed, and `full`
is `` `${latestVersion}\n${cleanContent.join("\n")}`.trim() ``. -/
def parseChangelog (changelogContent : List Char) : Entry :=
  match findFirstHeader (splitNl changelogContent) with
  | none =>
    { version := []
      content := trim (unlines [])
      full := trim ([] ++ nl :: unlines []) }
  | some (h, rest) =>
    let latestContent := h :: collectSection rest
    let cleanContent := latestContent.filter (fun l => !(startsWith l headerMark))
    { version := trim h
      content := trim (unlines cleanContent)
      full := trim (trim h ++ nl :: unlines cleanContent) }

/-- The index-finding loop of `insertReleaseIntoDocs`.  The first two
source branches (`line.trim() === "---"` with the flag false resp. true)
are merged into one toggle of `inFrontmatter`; the other three branches
are kept in source order.  The collected `overviewContent` array is not
used by the source function's output and is omitted. -/
def findInsertIndex : List (List Char) → Bool → Bool → Nat → Nat → Nat
  | [], _, _, insertIndex, _ => insertIndex
  | l :: ls, inFrontmatter, overviewFound, insertIndex, i =>
    if trim l = dashes then
      findInsertIndex ls (!inFrontmatter) overviewFound insertIndex (i + 1)
    else if !inFrontmatter && startsWith l ovMark then
      findInsertIndex ls inFrontmatter true i (i + 1)
    else if overviewFound && startsWith l headerMark then
      insertIndex
    else if overviewFound then
      findInsertIndex ls inFrontmatter overviewFound (i + 1) (i + 1)
    else
      findInsertIndex ls inFrontmatter overviewFound insertIndex (i + 1)

/-- `insertReleaseIntoDocs(docsContent, newRelease)` from the source:
splice `newRelease.full` at the computed index as
`` `${before}\n\n${newRelease.full}\n\n${after}`.trim() ``. -/
def insertReleaseIntoDocs (docsContent : List Char) (newRelease : Entry) : List Char :=
  let lines := splitNl docsContent
  let insertIndex := findInsertIndex lines false false 0 0
  let before := unlines (lines.take insertIndex)
  let after := unlines (lines.drop insertIndex)
  trim (before ++ nl :: nl :: newRelease.full ++ nl :: nl :: after)

/-- The loop of `removeDuplicateHeaders`; `seen` is the set of trimmed
header lines already encountered. -/
def removeDupAux (seen : List (List Char)) : List (List Char) → List (List Char)
  | [] => []
  | l :: ls =>
    if startsWith l headerMark then
      if trim l ∈ seen then removeDupAux seen ls
      else l :: removeDupAux (trim l :: seen) ls
    else l :: removeDupAux seen ls

/-- `removeDuplicateHeaders(content)` from the source. -/
def removeDuplicateHeaders (content : List Char) : List Char :=
  unlines (removeDupAux [] (splitNl content))

/-- The pure merge step of `updateReleaseNotes` (source lines 168-187):
skip if the destination already `includes` the new version header,
otherwise deduplicate headers and either insert after the Overview
section or prepend. -/
def merge (existingContent : List Char) (newRelease : Entry) : List Char :=
  if strIncludes existingContent newRelease.version then existingContent
  else
    let cleaned := removeDuplicateHeaders existingContent
    if strIncludes cleaned ovMark then insertReleaseIntoDocs cleaned newRelease
    else trim (newRelease.full ++ nl :: nl :: cleaned)

/-- Process outcome of one run of `updateReleaseNotes`.  The three exit
constructors record which `process.exit(1)` fired; `noUpdate` is the
early `return` when the version is already present; `wrote c` means the
destination file is rewritten with content `c`. -/
inductive Outcome where
  | exitSourceRead : Outcome
  | exitParse : Outcome
  | exitDestRead : Outcome
  | noUpdate : Outcome
  | wrote : List Char → Outcome
deriving DecidableEq

/-- `updateReleaseNotes()` from the source, as a function of the two
file-read results.  A failed source read exits inside `readFile`; a
failed destination read likewise exits inside `readFile` (the
surrounding `try/catch` is unreachable because `process.exit` does not
throw); the parse guard is `!newRelease.version || !newRelease.content`. -/
def updateReleaseNotes (sourceRead destRead : Option (List Char)) : Outcome :=
  match sourceRead with
  | none => Outcome.exitSourceRead
  | some changelogContent =>
    let newRelease := parseChangelog changelogContent
    if newRelease.version = [] ∨ newRelease.content = [] then Outcome.exitParse
    else
      match destRead with
      | none => Outcome.exitDestRead
      | some existingContent =>
        if strIncludes existingContent newRelease.version then Outcome.noUpdate
        else
          let cleaned := removeDuplicateHeaders existingContent
          let updatedContent :=
            if strIncludes cleaned ovMark then insertReleaseIntoDocs cleaned newRelease
            else trim (newRelease.full ++ nl :: nl :: cleaned)
          Outcome.wrote updatedContent

/-- Shorthand for string literals as character lists. -/
def toL (s : String) : List Char := s.toList

/-! Basic facts about `splitNl` and `unlines`. -/

theorem splitNl_nil : splitNl [] = [[]] := rfl

theorem splitNl_cons_nl (cs : List Char) : splitNl (nl :: cs) = [] :: splitNl cs := by
  simp [splitNl]

theorem splitNl_ne_nil (s : List Char) : splitNl s ≠ [] := by
  cases s with
  | nil => simp [splitNl]
  | cons c cs =>
    simp only [splitNl]
    by_cases h : c = nl
    · simp [h]
    · simp only [if_neg h]
      cases h2 : splitNl cs with
      | nil => simp
      | cons l ls => simp

theorem splitNl_exists_cons (s : List Char) : ∃ l ls, splitNl s = l :: ls := by
  cases h : splitNl s with
  | nil => exact absurd h (splitNl_ne_nil s)
  | cons l ls => exact ⟨l, ls, rfl⟩

theorem splitNl_cons_of_ne {c : Char} (cs : List Char) (h : ¬ c = nl) {l : List Char}
    {ls : List (List Char)} (h2 : splitNl cs = l :: ls) :
    splitNl (c :: cs) = (c :: l) :: ls := by
  simp only [splitNl, if_neg h, h2]

theorem splitNl_append_nl (a b : List Char) :
    splitNl (a ++ nl :: b) = splitNl a ++ splitNl b := by
  induction a with
  | nil => simp [splitNl_cons_nl, splitNl_nil]
  | cons c a ih =>
    by_cases h : c = nl
    · subst h
      rw [List.cons_append, splitNl_cons_nl, splitNl_cons_nl, ih, List.cons_append]
    · obtain ⟨l, ls, h2⟩ := splitNl_exists_cons a
      have h4 : splitNl (a ++ nl :: b) = l :: (ls ++ splitNl b) := by
        rw [ih, h2, List.cons_append]
      rw [List.cons_append, splitNl_cons_of_ne _ h h4, splitNl_cons_of_ne _ h h2,
        List.cons_append]

theorem unlines_nil : unlines [] = [] := rfl

theorem unlines_single (l : List Char) : unlines [l] = l := rfl

theorem unlines_cons₂ (l l' : List Char) (ls : List (List Char)) :
    unlines (l :: l' :: ls) = l ++ nl :: unlines (l' :: ls) := rfl

theorem unlines_splitNl (s : List Char) : unlines (splitNl s) = s := by
  induction s with
  | nil => rfl
  | cons c cs ih =>
    obtain ⟨l, ls, h2⟩ := splitNl_exists_cons cs
    by_cases h : c = nl
    · subst h
      rw [splitNl_cons_nl, h2, unlines_cons₂, ← h2, ih, List.nil_append]
    · rw [splitNl_cons_of_ne _ h h2]
      cases ls with
      | nil =>
        have : unlines [l] = cs := by rw [← h2, ih]
        rw [unlines_single] at this
        rw [unlines_single, this]
      | cons l' ls' =>
        have : l ++ nl :: unlines (l' :: ls') = cs := by rw [← unlines_cons₂, ← h2, ih]
        rw [unlines_cons₂, ← this, List.cons_append]

theorem splitNl_eq_single_nil_iff (s : List Char) : splitNl s = [[]] ↔ s = [] := by
  constructor
  · intro h
    have := unlines_splitNl s
    rw [h, unlines_single] at this
    exact this.symm
  · intro h; rw [h]; rfl

theorem nl_not_mem_splitNl {s l : List Char} (h : l ∈ splitNl s) : nl ∉ l := by
  induction s generalizing l with
  | nil =>
    rw [splitNl_nil, List.mem_singleton] at h
    rw [h]; exact List.not_mem_nil nl
  | cons c cs ih =>
    by_cases hc : c = nl
    · subst hc
      rw [splitNl_cons_nl] at h
      rcases List.mem_cons.mp h with h1 | h1
      · rw [h1]; exact List.not_mem_nil nl
      · exact ih h1
    · obtain ⟨l', ls', h2⟩ := splitNl_exists_cons cs
      rw [splitNl_cons_of_ne _ hc h2] at h
      rcases List.mem_cons.mp h with h1 | h1
      · subst h1
        intro hmem
        rcases List.mem_cons.mp hmem with h3 | h3
        · exact hc h3.symm
        · exact ih (by rw [h2]; exact List.mem_cons_self l' ls') h3
      · exact ih (by rw [h2]; exact List.mem_cons_of_mem l' h1)

theorem splitNl_of_not_mem {s : List Char} (h : nl ∉ s) : splitNl s = [s] := by
  induction s with
  | nil => rfl
  | cons c cs ih =>
    have hc : ¬ c = nl := fun hc => h (hc ▸ List.mem_cons_self c cs)
    have hcs : nl ∉ cs := fun hm => h (List.mem_cons_of_mem c hm)
    rw [splitNl_cons_of_ne _ hc (ih hcs)]

theorem unlines_append {ls₁ ls₂ : List (List Char)} (h1 : ls₁ ≠ []) (h2 : ls₂ ≠ []) :
    unlines (ls₁ ++ ls₂) = unlines ls₁ ++ nl :: unlines ls₂ := by
  induction ls₁ with
  | nil => exact absurd rfl h1
  | cons l ls ih =>
    cases ls with
    | nil =>
      cases ls₂ with
      | nil => exact absurd rfl h2
      | cons m ms => rw [List.singleton_append, unlines_cons₂, unlines_single]
    | cons l' ls' =>
      rw [List.cons_append, List.cons_append, unlines_cons₂, ← List.cons_append,
        ih (by simp) , unlines_cons₂, List.append_assoc, List.cons_append]

theorem splitNl_unlines {ls : List (List Char)} (hnl : ∀ l ∈ ls, nl ∉ l) (hne : ls ≠ []) :
    splitNl (unlines ls) = ls := by
  induction ls with
  | nil => exact absurd rfl hne
  | cons l ls ih =>
    cases ls with
    | nil => rw [unlines_single, splitNl_of_not_mem (hnl l (List.mem_cons_self l []))]
    | cons l' ls' =>
      rw [unlines_cons₂, splitNl_append_nl,
        splitNl_of_not_mem (hnl l (List.mem_cons_self l _)),
        ih (fun x hx => hnl x (List.mem_cons_of_mem l hx)) (by simp), List.singleton_append]

/-! Characterizations of `startsWith` and `strIncludes`. -/

theorem startsWith_iff {s p : List Char} : startsWith s p = true ↔ p <+: s := by
  unfold startsWith
  exact List.isPrefixOf_iff_prefix

theorem strIncludes_iff {s p : List Char} : strIncludes s p = true ↔ p <:+: s := by
  induction s with
  | nil => simp [strIncludes, List.isEmpty_iff, List.infix_nil]
  | cons c t ih =>
    simp only [strIncludes, Bool.or_eq_true, ih, List.infix_cons_iff]
    constructor
    · rintro (h | h)
      · exact Or.inl ( List.isPrefixOf_iff_prefix.mp h)
      · exact Or.inr h
    · rintro (h | h)
      · exact Or.inl ( List.isPrefixOf_iff_prefix.mpr h)
      · exact Or.inr h

/-! Facts about `trimL`, `trimR` and `trim`. -/

theorem trim_nil : trim [] = [] := rfl

theorem trimL_cons_of_not_ws {c : Char} (t : List Char) (h : isWS c = false) :
    trimL (c :: t) = c :: t := by
  unfold trimL
  simp [List.dropWhile_cons, h]

theorem trimL_suffix (s : List Char) : trimL s <:+ s := List.dropWhile_suffix isWS

theorem trimR_pre (s : List Char) : trimR s <+: s := by
  have h : (trimR s).reverse <:+ s.reverse := by
    unfold trimR
    rw [List.reverse_reverse]
    exact List.dropWhile_suffix isWS
  exact List.reverse_suffix.mp h

theorem not_ws_head_trimL {s : List Char} {c : Char} {t : List Char}
    (h : trimL s = c :: t) : isWS c = false := by
  have h2 := List.head?_dropWhile_not isWS s
  unfold trimL at h
  rw [h] at h2
  simpa using h2

theorem length_trimL_le (s : List Char) : (trimL s).length ≤ s.length :=
  (trimL_suffix s).length_le

theorem length_trimR_le (s : List Char) : (trimR s).length ≤ s.length :=
  (trimR_pre s).length_le

theorem trimL_eq_self_of_trim {s : List Char} (h : trim s = s) : trimL s = s := by
  have h1 : (trim s).length ≤ (trimL s).length := length_trimR_le (trimL s)
  rw [h] at h1
  exact (trimL_suffix s).eq_of_length (le_antisymm (length_trimL_le s) h1)

theorem trimR_eq_self_of_trim {s : List Char} (h : trim s = s) : trimR s = s := by
  have hL := trimL_eq_self_of_trim h
  have h2 : trim s = trimR s := by rw [trim, hL]
  rw [← h2, h]

theorem head_not_ws_of_trim {s : List Char} {c : Char} {t : List Char}
    (h : trim s = s) (he : s = c :: t) : isWS c = false := by
  have hL := trimL_eq_self_of_trim h
  rw [he] at hL
  exact not_ws_head_trimL hL

theorem dropWhile_reverse_of_trim {s : List Char} (h : trimR s = s) :
    List.dropWhile isWS s.reverse = s.reverse := by
  have h2 := congrArg List.reverse h
  rw [trimR, List.reverse_reverse] at h2
  exact h2

theorem getLast_not_ws_of_trim {s : List Char} {c : Char} {t : List Char}
    (h : trim s = s) (he : s.reverse = c :: t) : isWS c = false := by
  have h2 := dropWhile_reverse_of_trim (trimR_eq_self_of_trim h)
  rw [he] at h2
  exact not_ws_head_trimL (s := c :: t) h2

theorem head_trim_not_ws {s : List Char} {c : Char} {t : List Char}
    (h : trim s = c :: t) : isWS c = false := by
  have hp : trim s <+: trimL s := trimR_pre (trimL s)
  rw [h] at hp
  obtain ⟨u, hu⟩ := hp
  exact not_ws_head_trimL (s := s) hu.symm

theorem getLast_trim_not_ws {s : List Char} {c : Char} {t : List Char}
    (h : (trim s).reverse = c :: t) : isWS c = false := by
  have h2 : (trim s).reverse = List.dropWhile isWS (trimL s).reverse := by
    rw [trim, trimR, List.reverse_reverse]
  rw [h] at h2
  exact not_ws_head_trimL (s := (trimL s).reverse) h2.symm

theorem trim_idem (s : List Char) : trim (trim s) = trim s := by
  by_cases h : trim s = []
  · rw [h]; rfl
  · obtain ⟨c, t, he⟩ := List.exists_cons_of_ne_nil h
    have hL : trimL (trim s) = trim s := by
      rw [he]
      exact trimL_cons_of_not_ws _ (head_trim_not_ws (s := s) he)
    rw [trim, hL]
    obtain ⟨c2, t2, he2⟩ :=
      List.exists_cons_of_ne_nil (l := (trim s).reverse) (by simpa using h)
    have hws : isWS c2 = false := getLast_trim_not_ws (s := s) he2
    unfold trimR
    rw [he2, List.dropWhile_cons, hws]
    simp [← he2]

theorem trimR_eq_nil_iff {s : List Char} : trimR s = [] ↔ ∀ c ∈ s, isWS c = true := by
  unfold trimR
  rw [List.reverse_eq_nil_iff, List.dropWhile_eq_nil_iff]
  constructor
  · intro h c hc; exact h c (List.mem_reverse.mpr hc)
  · intro h c hc; exact h c (List.mem_reverse.mp hc)

theorem trim_eq_nil_iff {s : List Char} : trim s = [] ↔ ∀ c ∈ s, isWS c = true := by
  constructor
  · intro h c hc
    by_contra hw
    cases hL : trimL s with
    | nil =>
      rw [trimL, List.dropWhile_eq_nil_iff] at hL
      exact hw (hL c hc)
    | cons c' t =>
      have hws : isWS c' = false := not_ws_head_trimL hL
      rw [trim, hL, trimR_eq_nil_iff] at h
      have h2 := h c' (List.mem_cons_self c' t)
      rw [hws] at h2
      exact Bool.false_ne_true h2
  · intro h
    have hL : trimL s = [] := by rw [trimL, List.dropWhile_eq_nil_iff]; exact h
    rw [trim, hL]; rfl

theorem trimR_append_ws {x w : List Char} (h : ∀ c ∈ w, isWS c = true) :
    trimR (x ++ w) = trimR x := by
  unfold trimR
  rw [List.reverse_append, List.dropWhile_append]
  have h1 : List.dropWhile isWS w.reverse = [] := by
    rw [List.dropWhile_eq_nil_iff]
    intro c hc
    exact h c (List.mem_reverse.mp hc)
  rw [h1]
  simp

theorem trim_append_ws {a w : List Char} (h : ∀ c ∈ w, isWS c = true) :
    trim (a ++ w) = trim a := by
  unfold trim trimL
  rw [List.dropWhile_append]
  by_cases he : (List.dropWhile isWS a).isEmpty = true
  · rw [if_pos he]
    have h1 : List.dropWhile isWS w = [] := by
      rw [List.dropWhile_eq_nil_iff]; exact h
    rw [h1, List.isEmpty_iff] at *
    rw [he]
  · rw [if_neg he]
    exact trimR_append_ws h

theorem infix_trimL {p s : List Char} {c : Char} {t : List Char} (hp : p = c :: t)
    (hc : isWS c = false) (h : p <:+: s) : p <:+: trimL s := by
  obtain ⟨a, b, hab⟩ := h
  have hL : List.dropWhile isWS p = p := by
    rw [hp]; exact trimL_cons_of_not_ws t hc
  unfold trimL
  rw [← hab, List.append_assoc, List.dropWhile_append]
  by_cases he : (List.dropWhile isWS a).isEmpty = true
  · rw [if_pos he, List.dropWhile_append, hL]
    have h2 : p.isEmpty = false := by rw [hp]; rfl
    rw [h2]
    simp only [Bool.false_eq_true, if_false]
    exact ⟨[], b, by simp⟩
  · rw [if_neg he]
    exact List.infix_append' _ _ _

theorem infix_trim {p s : List Char} (hne : p ≠ []) (htp : trim p = p) (h : p <:+: s) :
    p <:+: trim s := by
  obtain ⟨c, t, hp⟩ := List.exists_cons_of_ne_nil hne
  have hc : isWS c = false := head_not_ws_of_trim htp hp
  have h1 : p <:+: trimL s := infix_trimL hp hc h
  have hrev : p.reverse <:+: (trimL s).reverse := List.reverse_infix.mpr h1
  have hpne : p.reverse ≠ [] := by simp [hp]
  obtain ⟨c2, t2, hp2⟩ := List.exists_cons_of_ne_nil hpne
  have hc2 : isWS c2 = false := getLast_not_ws_of_trim htp hp2
  have h2 : p.reverse <:+: trimL (trimL s).reverse := infix_trimL hp2 hc2 hrev
  have h3 : trimL (trimL s).reverse = (trim s).reverse := by
    rw [trim, trimR, List.reverse_reverse]; rfl
  rw [h3] at h2
  exact List.reverse_infix.mp h2

theorem infix_unlines_of_mem {l : List Char} {ls : List (List Char)} (h : l ∈ ls) :
    l <:+: unlines ls := by
  induction ls with
  | nil => cases h
  | cons m ms ih =>
    rcases List.mem_cons.mp h with h1 | h1
    · subst h1
      cases ms with
      | nil => exact List.infix_rfl
      | cons m' ms' =>
        rw [unlines_cons₂]
        exact ⟨[], nl :: unlines (m' :: ms'), by simp⟩
    · cases ms with
      | nil => cases h1
      | cons m' ms' =>
        rw [unlines_cons₂]
        have h2 : unlines (m' :: ms') <:+ m ++ nl :: unlines (m' :: ms') :=
          ⟨m ++ [nl], by simp⟩
        exact (ih h1).trans h2.isInfix

/-! Unfolded forms of the let-based definitions. -/

theorem insertReleaseIntoDocs_eq (docsContent : List Char) (e : Entry) :
    insertReleaseIntoDocs docsContent e =
      trim (unlines ((splitNl docsContent).take
          (findInsertIndex (splitNl docsContent) false false 0 0)) ++
        nl :: nl :: e.full ++ nl :: nl ::
        unlines ((splitNl docsContent).drop
          (findInsertIndex (splitNl docsContent) false false 0 0))) := rfl

theorem merge_eq (d : List Char) (e : Entry) :
    merge d e =
      if strIncludes d e.version = true then d
      else if strIncludes (removeDuplicateHeaders d) ovMark = true then
        insertReleaseIntoDocs (removeDuplicateHeaders d) e
      else trim (e.full ++ nl :: nl :: removeDuplicateHeaders d) := rfl

theorem updateReleaseNotes_some_some (c d : List Char) :
    updateReleaseNotes (some c) (some d) =
      (if (parseChangelog c).version = [] ∨ (parseChangelog c).content = [] then
        Outcome.exitParse
      else if strIncludes d (parseChangelog c).version = true then Outcome.noUpdate
      else Outcome.wrote
        (if strIncludes (removeDuplicateHeaders d) ovMark = true then
          insertReleaseIntoDocs (removeDuplicateHeaders d) (parseChangelog c)
        else trim ((parseChangelog c).full ++ nl :: nl :: removeDuplicateHeaders d))) := rfl

theorem updateReleaseNotes_some_none (c : List Char) :
    updateReleaseNotes (some c) none =
      (if (parseChangelog c).version = [] ∨ (parseChangelog c).content = [] then
        Outcome.exitParse
      else Outcome.exitDestRead) := rfl

theorem updateReleaseNotes_wrote_merge {c d : List Char}
    (hp : ¬ ((parseChangelog c).version = [] ∨ (parseChangelog c).content = []))
    (hin : strIncludes d (parseChangelog c).version = false) :
    updateReleaseNotes (some c) (some d) = Outcome.wrote (merge d (parseChangelog c)) := by
  have hin' : ¬ strIncludes d (parseChangelog c).version = true := by
    rw [hin]; exact Bool.false_ne_true
  rw [updateReleaseNotes_some_some, if_neg hp, if_neg hin', merge_eq, if_neg hin']

/-! Facts about `removeDupAux`. -/

theorem removeDupAux_sublist (seen : List (List Char)) (ls : List (List Char)) :
    (removeDupAux seen ls).Sublist ls := by
  induction ls generalizing seen with
  | nil => simp [removeDupAux]
  | cons l ls ih =>
    simp only [removeDupAux]
    by_cases h1 : startsWith l headerMark = true
    · rw [if_pos h1]
      by_cases h2 : trim l ∈ seen
      · rw [if_pos h2]
        exact (ih seen).cons l
      · rw [if_neg h2]
        exact (ih (trim l :: seen)).cons₂ l
    · rw [if_neg h1]
      exact (ih seen).cons₂ l

theorem removeDupAux_filter (seen : List (List Char)) (ls : List (List Char)) :
    (removeDupAux seen ls).filter (fun l => !(startsWith l headerMark)) =
      ls.filter (fun l => !(startsWith l headerMark)) := by
  induction ls generalizing seen with
  | nil => simp [removeDupAux]
  | cons l ls ih =>
    simp only [removeDupAux]
    by_cases h1 : startsWith l headerMark = true
    · by_cases h2 : trim l ∈ seen
      · rw [if_pos h1, if_pos h2, ih, List.filter_cons, h1]
        simp
      · rw [if_pos h1, if_neg h2, List.filter_cons, List.filter_cons, h1]
        simp only [Bool.not_true]
        rw [ih]
    · rw [if_neg h1, List.filter_cons, List.filter_cons,
        (by rw [Bool.not_eq_true] at h1; rw [h1] : startsWith l headerMark = false)]
      simp only [Bool.not_false]
      rw [ih]

theorem removeDupAux_nil_ne_nil (l : List Char) (ls : List (List Char)) :
    removeDupAux [] (l :: ls) ≠ [] := by
  simp only [removeDupAux]
  by_cases h1 : startsWith l headerMark = true
  · rw [if_pos h1, if_neg (List.not_mem_nil (trim l))]
    simp
  · rw [if_neg h1]
    simp

theorem splitNl_removeDuplicateHeaders (content : List Char) :
    splitNl (removeDuplicateHeaders content) = removeDupAux [] (splitNl content) := by
  obtain ⟨l, ls, h⟩ := splitNl_exists_cons content
  rw [removeDuplicateHeaders, h]
  apply splitNl_unlines
  · intro x hx
    exact nl_not_mem_splitNl (s := content)
      (by rw [h]; exact (removeDupAux_sublist [] (l :: ls)).subset hx)
  · exact removeDupAux_nil_ne_nil l ls

/-- C1: when the source changelog is readable and parses to a valid entry but
the destination read fails, the run exits inside `readFile` with a non-zero
exit (the `try/catch` in `updateReleaseNotes` cannot intercept `process.exit`),
so the merge-and-write the claim requires never happens. -/
theorem missingDestinationIsFatal :
    (parseChangelog (toL "## [2.0.0]\n- fixed a bug")).version ≠ [] ∧
    (parseChangelog (toL "## [2.0.0]\n- fixed a bug")).content ≠ [] ∧
    updateReleaseNotes (some (toL "## [2.0.0]\n- fixed a bug")) none =
      Outcome.exitDestRead := by decide

/-- C2: merging the same version entry twice equals merging once.  The entry
hypotheses are the `VersionEntry` invariants established by `parseChangelog`:
the header is nonempty, trimmed, and occurs in the full text. -/
theorem mergeIdempotent (d : List Char) (e : Entry) (h1 : e.version ≠ [])
    (h2 : trim e.version = e.version) (h3 : e.version <:+: e.full) :
    merge (merge d e) e = merge d e := by
  by_cases hin : strIncludes d e.version = true
  · have hd : merge d e = d := by rw [merge_eq, if_pos hin]
    rw [hd, merge_eq, if_pos hin]
  · have hvf : e.version <:+: merge d e := by
      rw [merge_eq, if_neg hin]
      by_cases hov : strIncludes (removeDuplicateHeaders d) ovMark = true
      · rw [if_pos hov, insertReleaseIntoDocs_eq]
        apply infix_trim h1 h2
        refine h3.trans ?_
        exact ⟨unlines ((splitNl (removeDuplicateHeaders d)).take
            (findInsertIndex (splitNl (removeDuplicateHeaders d)) false false 0 0)) ++
            [nl, nl],
          nl :: nl :: unlines ((splitNl (removeDuplicateHeaders d)).drop
            (findInsertIndex (splitNl (removeDuplicateHeaders d)) false false 0 0)),
          by simp⟩
      · rw [if_neg hov]
        apply infix_trim h1 h2
        refine h3.trans ?_
        exact ⟨[], nl :: nl :: removeDuplicateHeaders d, by simp⟩
    conv_lhs => rw [merge_eq]
    rw [if_pos (strIncludes_iff.mpr hvf)]

/-- Witness for C2 at a concrete destination and a concrete parsed entry. -/
theorem mergeIdempotent_witness :
    merge (merge (toL "## [1.0.0]\nOld notes") (parseChangelog (toL "## [2.0.0]\n- x")))
        (parseChangelog (toL "## [2.0.0]\n- x")) =
      merge (toL "## [1.0.0]\nOld notes") (parseChangelog (toL "## [2.0.0]\n- x")) :=
  mergeIdempotent _ _ (by decide) (by decide) (by decide)

/-- C3: if the destination already contains the parsed header verbatim, the
run returns without writing and the merge leaves the destination unchanged
byte-for-byte. -/
theorem alreadyPresentSkips (c d : List Char)
    (hv : (parseChangelog c).version ≠ []) (hc : (parseChangelog c).content ≠ [])
    (hin : (parseChangelog c).version <:+: d) :
    updateReleaseNotes (some c) (some d) = Outcome.noUpdate ∧
      merge d (parseChangelog c) = d := by
  have hi : strIncludes d (parseChangelog c).version = true := strIncludes_iff.mpr hin
  constructor
  · rw [updateReleaseNotes_some_some, if_neg (not_or.mpr ⟨hv, hc⟩), if_pos hi]
  · rw [merge_eq, if_pos hi]

/-- Witness for C3: destination already holding the `## [2.0.0]` header. -/
theorem alreadyPresentSkips_witness :
    updateReleaseNotes (some (toL "## [2.0.0]\n- y"))
        (some (toL "Intro\n## [2.0.0]\nstuff")) = Outcome.noUpdate ∧
      merge (toL "Intro\n## [2.0.0]\nstuff") (parseChangelog (toL "## [2.0.0]\n- y")) =
        toL "Intro\n## [2.0.0]\nstuff" :=
  alreadyPresentSkips _ _ (by decide) (by decide) (by decide)

/-- C9: the already-present check is plain substring containment: any
decomposition of the destination around the header text, line-aligned or not,
makes the merge return the destination unchanged. -/
theorem substringOccurrenceSkips (d a b : List Char) (e : Entry)
    (h : d = a ++ e.version ++ b) : merge d e = d := by
  have h2 : e.version <:+: d := ⟨a, b, h.symm⟩
  rw [merge_eq, if_pos (strIncludes_iff.mpr h2)]

/-- Witness for C9: the header occurs only inside a prose line, yet the merge
is skipped. -/
theorem substringOccurrenceSkips_witness :
    merge (toL "Intro mentions ## [2.0.0] inline\n## [1.0.0]\nold")
        (parseChangelog (toL "## [2.0.0]\n- x")) =
      toL "Intro mentions ## [2.0.0] inline\n## [1.0.0]\nold" :=
  substringOccurrenceSkips _ (toL "Intro mentions ")
    (toL " inline\n## [1.0.0]\nold") _ (by decide)

/-- C10: `removeDuplicateHeaders` keeps every line that does not begin with
the version marker, unchanged and in its original relative order. -/
theorem removeDuplicateHeadersKeepsBody (content : List Char) :
    (splitNl (removeDuplicateHeaders content)).filter
        (fun l => !(startsWith l headerMark)) =
      (splitNl content).filter (fun l => !(startsWith l headerMark)) := by
  rw [splitNl_removeDuplicateHeaders]
  exact removeDupAux_filter [] (splitNl content)

/-- Counterexample to C4: when the new entry's header equals the duplicated
destination header, the run short-circuits before deduplication and both
copies survive: the result holds the header line twice, not once. -/
theorem dedupSkippedWhenHeaderMatches :
    (splitNl (merge (toL "## [1.0.0]\nfirst\n## [1.0.0]\nsecond")
        (parseChangelog (toL "## [1.0.0]\n- note")))).count (toL "## [1.0.0]") = 2 := by
  decide

/-- Counterexample to C5 (the spec's own example): the inserted entry is
followed by exactly one blank line, not two. -/
theorem singleBlankLineAfterInsert :
    splitNl (merge (toL "## Overview\nSome text\n## [1.0.0]\nOld notes")
        (parseChangelog (toL "## [2.0.0]\n- Added stuff"))) =
      [toL "## Overview", toL "Some text", [], toL "## [2.0.0]", toL "- Added stuff",
        [], toL "## [1.0.0]", toL "Old notes"] ∧
    splitNl (merge (toL "## Overview\nSome text\n## [1.0.0]\nOld notes")
        (parseChangelog (toL "## [2.0.0]\n- Added stuff"))) ≠
      [toL "## Overview", toL "Some text", [], toL "## [2.0.0]", toL "- Added stuff",
        [], [], toL "## [1.0.0]", toL "Old notes"] := by decide

/-- Counterexample to C6: a source whose only line is a version header (no
body) parses to an empty `content`, and the run exits at the parse guard even
though a version-header line is present. -/
theorem headerOnlySourceExitsParse :
    toL "## [1.0.0]" ∈ splitNl (toL "## [1.0.0]") ∧
    startsWith (toL "## [1.0.0]") headerMark = true ∧
    updateReleaseNotes (some (toL "## [1.0.0]")) (some []) = Outcome.exitParse := by
  decide

/-- Counterexample to C7: a header line with trailing whitespace is trimmed by
the parser, so the merged result differs from the trimmed text of the source's
unique version section. -/
theorem roundTripTrimsHeaderLine :
    merge [] (parseChangelog (toL "## [1.0.0] \n- a")) = toL "## [1.0.0]\n- a" ∧
    merge [] (parseChangelog (toL "## [1.0.0] \n- a")) ≠
      trim (unlines ((splitNl (toL "## [1.0.0] \n- a")).dropWhile
        (fun l => !(startsWith l headerMark)))) := by decide

/-- Counterexample to C8: the returned header is the trimmed first marker
line, not that line itself, when the line carries trailing whitespace. -/
theorem parseTrimsHeaderLine :
    (splitNl (toL "## [2.2.2] \n- b")).head? = some (toL "## [2.2.2] ") ∧
    startsWith (toL "## [2.2.2] ") headerMark = true ∧
    (parseChangelog (toL "## [2.2.2] \n- b")).version ≠ toL "## [2.2.2] " ∧
    (parseChangelog (toL "## [2.2.2] \n- b")).version = toL "## [2.2.2]" := by decide

/-! Characterization of `parseChangelog`. -/

theorem findFirstHeader_append_eq {pre : List (List Char)} {hd : List Char}
    (rest : List (List Char)) (hpre : ∀ l ∈ pre, startsWith l headerMark = false)
    (hhd : startsWith hd headerMark = true) :
    findFirstHeader (pre ++ hd :: rest) = some (hd, rest) := by
  induction pre with
  | nil => simp [findFirstHeader, hhd]
  | cons l pre ih =>
    have h1 : startsWith l headerMark = false := hpre l (List.mem_cons_self l pre)
    rw [List.cons_append]
    simp only [findFirstHeader, h1]
    exact ih (fun x hx => hpre x (List.mem_cons_of_mem l hx))

theorem findFirstHeader_eq_none_iff {ls : List (List Char)} :
    findFirstHeader ls = none ↔ ∀ l ∈ ls, startsWith l headerMark = false := by
  induction ls with
  | nil => simp [findFirstHeader]
  | cons l ls ih =>
    simp only [findFirstHeader]
    by_cases h1 : startsWith l headerMark = true
    · simp [h1]
    · rw [if_neg h1, ih]
      rw [Bool.not_eq_true] at h1
      simp [h1]

theorem findFirstHeader_some_mem {ls : List (List Char)} {hd : List Char}
    {rest : List (List Char)} (h : findFirstHeader ls = some (hd, rest)) :
    hd ∈ ls ∧ startsWith hd headerMark = true := by
  induction ls with
  | nil => simp [findFirstHeader] at h
  | cons l ls ih =>
    simp only [findFirstHeader] at h
    by_cases h1 : startsWith l headerMark = true
    · rw [if_pos h1] at h
      obtain ⟨h2, h3⟩ := Prod.mk.injEq .. ▸ Option.some.injEq .. ▸ h
      subst h2
      exact ⟨List.mem_cons_self l ls, h1⟩
    · rw [if_neg h1] at h
      obtain ⟨h2, h3⟩ := ih h
      exact ⟨List.mem_cons_of_mem l h2, h3⟩

theorem collectSection_eq_takeWhile (ls : List (List Char)) :
    collectSection ls = ls.takeWhile (fun l => !(startsWith l headerMark)) := by
  induction ls with
  | nil => rfl
  | cons l ls ih =>
    simp only [collectSection, List.takeWhile_cons]
    by_cases h1 : startsWith l headerMark = true
    · simp [h1]
    · rw [Bool.not_eq_true] at h1
      simp [h1, ih]

theorem mem_collectSection_not_header {ls : List (List Char)} {l : List Char}
    (h : l ∈ collectSection ls) : startsWith l headerMark = false := by
  rw [collectSection_eq_takeWhile] at h
  have := List.mem_takeWhile_imp h
  rwa [Bool.not_eq_true'] at this

theorem parseChangelog_none {c : List Char} (h : findFirstHeader (splitNl c) = none) :
    parseChangelog c = ⟨[], [], []⟩ := by
  unfold parseChangelog
  rw [h]
  rfl

theorem parseChangelog_some {c : List Char} {hd : List Char} {rest : List (List Char)}
    (h : findFirstHeader (splitNl c) = some (hd, rest))
    (hhd : startsWith hd headerMark = true) :
    parseChangelog c =
      { version := trim hd
        content := trim (unlines (collectSection rest))
        full := trim (trim hd ++ nl :: unlines (collectSection rest)) } := by
  unfold parseChangelog
  rw [h]
  have h2 : (hd :: collectSection rest).filter (fun l => !(startsWith l headerMark)) =
      collectSection rest := by
    rw [List.filter_cons, hhd]
    simp only [Bool.not_true, Bool.false_eq_true, if_false]
    rw [List.filter_eq_self]
    intro l hl
    rw [mem_collectSection_not_header hl]
    rfl
  simp only [h2]

theorem hash_not_ws : isWS '#' = false := by decide

theorem header_contains_hash {hd : List Char} (h : startsWith hd headerMark = true) :
    '#' ∈ hd := by
  obtain ⟨t, ht⟩ := startsWith_iff.mp h
  rw [← ht]
  exact List.mem_append.mpr (Or.inl (by decide))

theorem trim_header_ne_nil {hd : List Char} (h : startsWith hd headerMark = true) :
    trim hd ≠ [] := by
  intro h2
  have h3 := trim_eq_nil_iff.mp h2 '#' (header_contains_hash h)
  rw [hash_not_ws] at h3
  exact Bool.false_ne_true h3

theorem parseVersion_eq_nil_iff (src : List Char) :
    (parseChangelog src).version = [] ↔
      ∀ l ∈ splitNl src, startsWith l headerMark = false := by
  cases h : findFirstHeader (splitNl src) with
  | none =>
    rw [parseChangelog_none h]
    simp only [true_iff]
    exact fun l hl => by
      have := findFirstHeader_eq_none_iff.mp h
      exact this l hl
  | some p =>
    obtain ⟨hd, rest⟩ := p
    obtain ⟨hmem, hhd⟩ := findFirstHeader_some_mem h
    rw [parseChangelog_some h hhd]
    simp only
    constructor
    · intro h2
      exact absurd h2 (trim_header_ne_nil hhd)
    · intro h2
      have := h2 hd hmem
      rw [hhd] at this
      exact absurd this.symm Bool.false_ne_true

/-- C6 (amended): the run aborts at the parse guard iff the source has no
version-header line or the extracted section's trimmed body is empty (the
guard is `!newRelease.version || !newRelease.content`). -/
theorem parseFailureCharacterization (src : List Char) (dst : Option (List Char)) :
    updateReleaseNotes (some src) dst = Outcome.exitParse ↔
      ((∀ l ∈ splitNl src, startsWith l headerMark = false) ∨
        (parseChangelog src).content = []) := by
  rw [← parseVersion_eq_nil_iff]
  cases dst with
  | none =>
    rw [updateReleaseNotes_some_none]
    by_cases h : (parseChangelog src).version = [] ∨ (parseChangelog src).content = []
    · rw [if_pos h]; simpa using h
    · rw [if_neg h]
      constructor
      · intro h2; exact absurd h2 (by simp [Outcome.exitDestRead])
      · intro h2; exact absurd h2 h
  | some d =>
    rw [updateReleaseNotes_some_some]
    by_cases h : (parseChangelog src).version = [] ∨ (parseChangelog src).content = []
    · rw [if_pos h]; simpa using h
    · rw [if_neg h]
      constructor
      · intro h2
        by_cases h3 : strIncludes d (parseChangelog src).version = true
        · rw [if_pos h3] at h2
          exact absurd h2 (by simp)
        · rw [if_neg h3] at h2
          exact absurd h2 (by simp)
      · intro h2; exact absurd h2 h

/-- C8 (amended): `parseChangelog` returns exactly the first version section:
`version` is the trimmed first marker line, `content` is the span of lines
after it, up to but excluding the next marker line, joined and trimmed, and
`full` combines the two; no content of a later section is included. -/
theorem parseReturnsFirstSection {c : List Char} {pre rest : List (List Char)}
    {hd : List Char}
    (hsplit : splitNl c = pre ++ hd :: rest)
    (hpre : ∀ l ∈ pre, startsWith l headerMark = false)
    (hhd : startsWith hd headerMark = true) :
    (parseChangelog c).version = trim hd ∧
    (parseChangelog c).content =
      trim (unlines (rest.takeWhile (fun l => !(startsWith l headerMark)))) ∧
    (parseChangelog c).full =
      trim (trim hd ++ nl ::
        unlines (rest.takeWhile (fun l => !(startsWith l headerMark)))) := by
  have hf : findFirstHeader (splitNl c) = some (hd, rest) := by
    rw [hsplit]; exact findFirstHeader_append_eq rest hpre hhd
  rw [parseChangelog_some hf hhd, collectSection_eq_takeWhile]
  exact ⟨rfl, rfl, rfl⟩

/-- Witness for C8 at a source with a prologue and two sections. -/
theorem parseReturnsFirstSection_witness :
    (parseChangelog (toL "intro\n## [2.0.0] x\n- a\n## [1.0.0]\n- b")).version =
      trim (toL "## [2.0.0] x") ∧
    (parseChangelog (toL "intro\n## [2.0.0] x\n- a\n## [1.0.0]\n- b")).content =
      trim (unlines ([toL "- a", toL "## [1.0.0]", toL "- b"].takeWhile
        (fun l => !(startsWith l headerMark)))) ∧
    (parseChangelog (toL "intro\n## [2.0.0] x\n- a\n## [1.0.0]\n- b")).full =
      trim (trim (toL "## [2.0.0] x") ++ nl ::
        unlines ([toL "- a", toL "## [1.0.0]", toL "- b"].takeWhile
          (fun l => !(startsWith l headerMark)))) :=
  @parseReturnsFirstSection (toL "intro\n## [2.0.0] x\n- a\n## [1.0.0]\n- b")
    [toL "intro"] [toL "- a", toL "## [1.0.0]", toL "- b"] (toL "## [2.0.0] x")
    (by decide) (by decide) (by decide)

/-- C7 (amended): parsing a source with exactly one version section and
merging into the empty destination yields the trimmed section text, with the
header line itself trimmed of surrounding whitespace. -/
theorem roundTripSingleSection {c : List Char} {pre rest : List (List Char)}
    {hd : List Char}
    (hsplit : splitNl c = pre ++ hd :: rest)
    (hpre : ∀ l ∈ pre, startsWith l headerMark = false)
    (hhd : startsWith hd headerMark = true)
    (hrest : ∀ l ∈ rest, startsWith l headerMark = false) :
    merge [] (parseChangelog c) = trim (unlines (trim hd :: rest)) := by
  have hf : findFirstHeader (splitNl c) = some (hd, rest) := by
    rw [hsplit]; exact findFirstHeader_append_eq rest hpre hhd
  have hcs : collectSection rest = rest := by
    rw [collectSection_eq_takeWhile]
    rw [List.takeWhile_eq_self_iff]
    intro l hl
    rw [hrest l hl]
    rfl
  rw [parseChangelog_some hf hhd, hcs]
  obtain ⟨ch, tl, hcons⟩ := List.exists_cons_of_ne_nil (trim_header_ne_nil hhd)
  have hninc : strIncludes [] (trim hd) = false := by
    simp only [strIncludes]
    rw [hcons]
    rfl
  rw [merge_eq]
  simp only
  rw [hninc]
  simp only [Bool.false_eq_true, if_false]
  have hrdh : removeDuplicateHeaders [] = [] := by decide
  rw [hrdh]
  have hov : strIncludes [] ovMark = false := by decide
  rw [hov]
  simp only [Bool.false_eq_true, if_false]
  have hws2 : ∀ x ∈ [nl, nl], isWS x = true := by decide
  rw [show trim (trim hd ++ nl :: unlines rest) ++ nl :: nl :: [] =
      trim (trim hd ++ nl :: unlines rest) ++ [nl, nl] from rfl,
    trim_append_ws hws2, trim_idem]
  cases rest with
  | nil =>
    rw [unlines_single]
    have hws1 : ∀ x ∈ [nl], isWS x = true := by decide
    rw [show trim hd ++ nl :: unlines ([] : List (List Char)) = trim hd ++ [nl] from rfl,
      trim_append_ws hws1, trim_idem]
  | cons r rs =>
    rw [unlines_cons₂]

/-- Witness for C7 at a one-section source with a prologue line. -/
theorem roundTripSingleSection_witness :
    merge [] (parseChangelog (toL "intro\n## [3.0.0] \n- only")) =
      trim (unlines (trim (toL "## [3.0.0] ") :: [toL "- only"])) :=
  @roundTripSingleSection (toL "intro\n## [3.0.0] \n- only")
    [toL "intro"] [toL "- only"] (toL "## [3.0.0] ")
    (by decide) (by decide) (by decide) (by decide)

/-! Commutation of the two trims, and their interplay with `reverse`. -/

theorem trimL_cons_ws {c : Char} {t : List Char} (h : isWS c = true) :
    trimL (c :: t) = trimL t := by
  unfold trimL
  rw [List.dropWhile_cons, h]
  simp

theorem trimL_append_ws {w y : List Char} (h : ∀ c ∈ w, isWS c = true) :
    trimL (w ++ y) = trimL y := by
  unfold trimL
  rw [List.dropWhile_append]
  have h1 : List.dropWhile isWS w = [] := List.dropWhile_eq_nil_iff.mpr h
  rw [h1]
  simp

theorem trimR_append (x y : List Char) :
    trimR (x ++ y) = if trimR y = [] then trimR x else x ++ trimR y := by
  unfold trimR
  rw [List.reverse_append, List.dropWhile_append]
  by_cases he : (List.dropWhile isWS y.reverse).isEmpty = true
  · rw [if_pos he]
    rw [List.isEmpty_iff] at he
    rw [if_pos (by rw [he]; rfl)]
  · rw [if_neg he]
    rw [List.isEmpty_iff] at he
    rw [if_neg (fun h2 => he (by rwa [List.reverse_eq_nil_iff] at h2)),
      List.reverse_append, List.reverse_reverse]

theorem trimL_head_not_ws {s : List Char} (h : trimL s ≠ []) :
    ∃ c t, trimL s = c :: t ∧ isWS c = false := by
  obtain ⟨c, t, hc⟩ := List.exists_cons_of_ne_nil h
  exact ⟨c, t, hc, not_ws_head_trimL hc⟩

theorem trimL_trimR_comm (s : List Char) : trimL (trimR s) = trimR (trimL s) := by
  have hsplit : s = s.takeWhile isWS ++ trimL s := (List.takeWhile_append_dropWhile isWS s).symm
  have hw : ∀ c ∈ s.takeWhile isWS, isWS c = true := fun c hc => List.mem_takeWhile_imp hc
  by_cases ht : trimL s = []
  · have hws : ∀ c ∈ s, isWS c = true := by
      rw [trimL, List.dropWhile_eq_nil_iff] at ht
      exact ht
    rw [ht, trimR_eq_nil_iff.mpr hws]
    rfl
  · obtain ⟨c, t, hct, hcws⟩ := trimL_head_not_ws ht
    by_cases htr : trimR (trimL s) = []
    · rw [trimR_eq_nil_iff] at htr
      have h2 := htr c (by rw [hct]; exact List.mem_cons_self c t)
      rw [hcws] at h2
      exact absurd h2 Bool.false_ne_true
    · conv_lhs => rw [hsplit]
      rw [trimR_append, if_neg htr, trimL_append_ws hw]
      obtain ⟨c2, t2, hc2⟩ := List.exists_cons_of_ne_nil htr
      have hpre : trimR (trimL s) <+: trimL s := trimR_pre (trimL s)
      obtain ⟨u, hu⟩ := hpre
      rw [hc2] at hu
      have hcc : c2 = c := by
        have h3 : trimL s = c2 :: (t2 ++ u) := by rw [← hu]; rfl
        rw [hct] at h3
        exact (List.cons.injEq .. ▸ h3).1.symm
      rw [hc2, trimL_cons_of_not_ws t2 (hcc ▸ hcws), ← hc2]

theorem trim_reverse (s : List Char) : trim s.reverse = (trim s).reverse := by
  have h1 : trimL s.reverse = (trimR s).reverse := by
    rw [trimR, List.reverse_reverse]; rfl
  have h2 : trimR (trimR s).reverse = (trimL (trimR s)).reverse := by
    rw [trimR, List.reverse_reverse]; rfl
  rw [trim, h1, h2, trimL_trimR_comm, trim]

/-! `splitNl` under appending newline-free text and under `reverse`. -/

theorem splitNl_append_no_nl {b : List Char} (hb : nl ∉ b) :
    ∀ a, ∃ M L, splitNl a = M ++ [L] ∧ splitNl (a ++ b) = M ++ [L ++ b] := by
  intro a
  induction a with
  | nil =>
    refine ⟨[], [], rfl, ?_⟩
    rw [List.nil_append, splitNl_of_not_mem hb]
    rfl
  | cons c a ih =>
    obtain ⟨M, L, h1, h2⟩ := ih
    by_cases hc : c = nl
    · subst hc
      exact ⟨[] :: M, L, by rw [splitNl_cons_nl, h1]; rfl,
        by rw [List.cons_append, splitNl_cons_nl, h2]; rfl⟩
    · cases M with
      | nil =>
        refine ⟨[], c :: L, ?_, ?_⟩
        · rw [splitNl_cons_of_ne a hc (by rw [h1]; rfl), List.nil_append]
        · rw [List.cons_append, splitNl_cons_of_ne (a ++ b) hc (by rw [h2]; rfl),
            List.nil_append, List.cons_append]
      | cons m M' =>
        refine ⟨(c :: m) :: M', L, ?_, ?_⟩
        · rw [splitNl_cons_of_ne a hc (by rw [h1]; rfl)]
          rfl
        · rw [List.cons_append, splitNl_cons_of_ne (a ++ b) hc (by rw [h2]; rfl)]
          rfl

theorem splitNl_reverse (s : List Char) :
    splitNl s.reverse = ((splitNl s).map List.reverse).reverse := by
  induction s with
  | nil => rfl
  | cons c cs ih =>
    by_cases hc : c = nl
    · subst hc
      have h1 : (nl :: cs).reverse = cs.reverse ++ nl :: [] := by
        rw [List.reverse_cons]
      rw [h1, splitNl_append_nl, splitNl_cons_nl, ih, splitNl_nil,
        List.map_cons, List.reverse_cons]
      rfl
    · obtain ⟨l, ls, h1⟩ := splitNl_exists_cons cs
      have hnb : nl ∉ [c] := by
        intro h2
        rcases List.mem_singleton.mp h2 with h3
        exact hc h3.symm
      obtain ⟨M, L, h2, h3⟩ := splitNl_append_no_nl hnb cs.reverse
      have h4 : (c :: cs).reverse = cs.reverse ++ [c] := by rw [List.reverse_cons]
      rw [h4, h3]
      rw [ih, h1] at h2
      have h5 : ((l :: ls).map List.reverse).reverse =
          (ls.map List.reverse).reverse ++ [l.reverse] := by
        rw [List.map_cons, List.reverse_cons]
      rw [h5] at h2
      obtain ⟨hM, hL⟩ := List.append_inj' h2 rfl
      rw [splitNl_cons_of_ne cs hc h1]
      have h6 : L = l.reverse := (List.cons.injEq .. ▸ hL).1.symm
      rw [← hM, h6, List.map_cons, List.reverse_cons, List.reverse_cons]

theorem count_map_reverse (a : List Char) (l : List (List Char)) :
    (l.map List.reverse).count a = l.count a.reverse := by
  induction l with
  | nil => rfl
  | cons m ms ih =>
    rw [List.map_cons, List.count_cons, List.count_cons, ih]
    congr 1
    by_cases h : m.reverse = a
    · rw [if_pos (by rwa [beq_iff_eq]), if_pos (by
        rw [beq_iff_eq, ← h, List.reverse_reverse])]
    · rw [if_neg (by rwa [beq_iff_eq]), if_neg (by
        rw [beq_iff_eq]
        intro h2
        exact h (by rw [h2, List.reverse_reverse]))]

/-! Counting occurrences of a fixed line through `trimL`, `trimR` and `trim`:
under the hypothesis that no line trims *into* the fixed line without being
it, the number of occurrences among the lines is preserved. -/

theorem count_splitNl_trimL {hdr : List Char} {hc : Char} {htl : List Char}
    (hh : hdr = hc :: htl) (hws : isWS hc = false) (hthdr : trim hdr = hdr) :
    ∀ X : List Char, (∀ l ∈ splitNl X, trim l = hdr → l = hdr) →
    (splitNl (trimL X)).count hdr = (splitNl X).count hdr := by
  intro X
  induction X with
  | nil => intro _; rfl
  | cons c X ih =>
    intro hyp
    by_cases hcw : isWS c = true
    · by_cases hcnl : c = nl
      · subst hcnl
        rw [trimL_cons_ws hcw, splitNl_cons_nl, List.count_cons]
        have h0 : (([] : List Char) == hdr) = false :=
          beq_eq_false_iff_ne.mpr (by rw [hh]; exact fun h2 => List.noConfusion h2)
        rw [h0]
        simp only [Bool.false_eq_true, if_false, Nat.add_zero]
        exact ih (fun l hl => hyp l (by
          rw [splitNl_cons_nl]; exact List.mem_cons_of_mem [] hl))
      · obtain ⟨l, ls, h1⟩ := splitNl_exists_cons X
        rw [trimL_cons_ws hcw, splitNl_cons_of_ne X hcnl h1, List.count_cons]
        have hmemc : (c :: l) ∈ splitNl (c :: X) := by
          rw [splitNl_cons_of_ne X hcnl h1]
          exact List.mem_cons_self _ _
        have hcl : ¬ (c :: l) = hdr := by
          intro h2
          rw [hh] at h2
          have h3 := (List.cons.injEq .. ▸ h2).1
          rw [h3, hws] at hcw
          exact Bool.false_ne_true hcw
        have hlne : ¬ l = hdr := by
          intro h2
          have h3 : trim (c :: l) = hdr := by
            rw [trim, trimL_cons_ws hcw, ← trim, h2, hthdr]
          exact hcl (hyp _ hmemc h3)
        have hyp' : ∀ m ∈ splitNl X, trim m = hdr → m = hdr := by
          intro m hm ht
          rw [h1] at hm
          rcases List.mem_cons.mp hm with h2 | h2
          · subst h2
            exact absurd (hyp _ hmemc (by
              rw [trim, trimL_cons_ws hcw, ← trim]; exact ht)) hcl
          · exact hyp m (by
              rw [splitNl_cons_of_ne X hcnl h1]
              exact List.mem_cons_of_mem _ h2) ht
        rw [ih hyp', h1, List.count_cons, beq_eq_false_iff_ne.mpr hlne,
          beq_eq_false_iff_ne.mpr hcl]
    · have hcw' : isWS c = false := by rwa [Bool.not_eq_true] at hcw
      rw [trimL_cons_of_not_ws X hcw']

theorem mem_splitNl_trimL : ∀ {X l : List Char}, l ∈ splitNl (trimL X) →
    ∃ w, (∀ c ∈ w, isWS c = true) ∧ w ++ l ∈ splitNl X := by
  intro X
  induction X with
  | nil =>
    intro l hl
    exact ⟨[], by simp, by simpa using hl⟩
  | cons c X ih =>
    intro l hl
    by_cases hcw : isWS c = true
    · by_cases hcnl : c = nl
      · subst hcnl
        rw [trimL_cons_ws hcw] at hl
        obtain ⟨w, hw1, hw2⟩ := ih hl
        exact ⟨w, hw1, by rw [splitNl_cons_nl]; exact List.mem_cons_of_mem _ hw2⟩
      · obtain ⟨m, ms, h1⟩ := splitNl_exists_cons X
        rw [trimL_cons_ws hcw] at hl
        obtain ⟨w, hw1, hw2⟩ := ih hl
        rw [h1] at hw2
        rcases List.mem_cons.mp hw2 with h2 | h2
        · refine ⟨c :: w, ?_, ?_⟩
          · intro x hx
            rcases List.mem_cons.mp hx with h3 | h3
            · rw [h3]; exact hcw
            · exact hw1 x h3
          · rw [splitNl_cons_of_ne X hcnl h1, List.cons_append, h2]
            exact List.mem_cons_self _ _
        · exact ⟨w, hw1, by
            rw [splitNl_cons_of_ne X hcnl h1]
            exact List.mem_cons_of_mem _ h2⟩
    · have hcw' : isWS c = false := by rwa [Bool.not_eq_true] at hcw
      rw [trimL_cons_of_not_ws X hcw'] at hl
      exact ⟨[], by simp, hl⟩

theorem count_splitNl_trimR {hdr Y : List Char} {hc : Char} {htl : List Char}
    (hh : hdr.reverse = hc :: htl) (hws : isWS hc = false) (hthdr : trim hdr = hdr)
    (hyp : ∀ l ∈ splitNl Y, trim l = hdr → l = hdr) :
    (splitNl (trimR Y)).count hdr = (splitNl Y).count hdr := by
  have e1 : trimR Y = (trimL Y.reverse).reverse := rfl
  have hyprev : ∀ l ∈ splitNl Y.reverse, trim l = hdr.reverse → l = hdr.reverse := by
    intro l hl ht
    rw [splitNl_reverse, List.mem_reverse, List.mem_map] at hl
    obtain ⟨m, hm, hml⟩ := hl
    rw [← hml, trim_reverse] at ht
    rw [← hml]
    exact congrArg List.reverse (hyp m hm (List.reverse_inj.mp ht))
  have hthdr' : trim hdr.reverse = hdr.reverse := by rw [trim_reverse, hthdr]
  have main := count_splitNl_trimL hh hws hthdr' Y.reverse hyprev
  rw [e1, splitNl_reverse, List.count_reverse, count_map_reverse, main,
    splitNl_reverse, List.count_reverse, count_map_reverse, List.reverse_reverse]

theorem count_splitNl_trim {hdr X : List Char} (hne : hdr ≠ []) (hthdr : trim hdr = hdr)
    (hyp : ∀ l ∈ splitNl X, trim l = hdr → l = hdr) :
    (splitNl (trim X)).count hdr = (splitNl X).count hdr := by
  obtain ⟨hc, htl, hh⟩ := List.exists_cons_of_ne_nil hne
  have hws : isWS hc = false := head_not_ws_of_trim hthdr hh
  have hrne : hdr.reverse ≠ [] := by simp [hh]
  obtain ⟨hc2, htl2, hh2⟩ := List.exists_cons_of_ne_nil hrne
  have hws2 : isWS hc2 = false := getLast_not_ws_of_trim hthdr hh2
  have hypL : ∀ l ∈ splitNl (trimL X), trim l = hdr → l = hdr := by
    intro l hl ht
    obtain ⟨w, hwws, hwmem⟩ := mem_splitNl_trimL hl
    have h2 : trim (w ++ l) = hdr := by
      rw [trim, trimL_append_ws hwws, ← trim, ht]
    have h3 := hyp _ hwmem h2
    cases w with
    | nil => simpa using h3
    | cons wc wt =>
      exfalso
      have h4 : isWS wc = true := hwws wc (List.mem_cons_self wc wt)
      have h5 : hdr.head? = some wc := by rw [← h3]; rfl
      rw [hh] at h5
      have h6 : hc = wc := Option.some.inj h5
      rw [← h6, hws] at h4
      exact Bool.false_ne_true h4
  have step1 := count_splitNl_trimL hh hws hthdr X hyp
  have step2 := count_splitNl_trimR hh2 hws2 hthdr hypL
  calc (splitNl (trim X)).count hdr = (splitNl (trimR (trimL X))).count hdr := rfl
    _ = (splitNl (trimL X)).count hdr := step2
    _ = (splitNl X).count hdr := step1

theorem count_splitNl_unlines {hdr : List Char} (hne : hdr ≠ [])
    {ls : List (List Char)} (hnl : ∀ l ∈ ls, nl ∉ l) :
    (splitNl (unlines ls)).count hdr = ls.count hdr := by
  cases ls with
  | nil =>
    rw [unlines_nil, splitNl_nil, List.count_singleton,
      beq_eq_false_iff_ne.mpr (fun h => hne h.symm)]
    rfl
  | cons l ls' => rw [splitNl_unlines hnl (by simp)]

/-! Counting a fixed header line through `removeDupAux`. -/

theorem count_removeDupAux {hdr : List Char} (hmark : startsWith hdr headerMark = true)
    (hthdr : trim hdr = hdr) :
    ∀ (ls : List (List Char)) (seen : List (List Char)),
    (∀ l ∈ ls, trim l = hdr → l = hdr) →
    (removeDupAux seen ls).count hdr =
      if hdr ∈ seen then 0 else min (ls.count hdr) 1 := by
  intro ls
  induction ls with
  | nil =>
    intro seen _
    by_cases hm : hdr ∈ seen <;> simp [removeDupAux, hm]
  | cons l ls ih =>
    intro seen hnear
    have hnear' : ∀ m ∈ ls, trim m = hdr → m = hdr :=
      fun m hm => hnear m (List.mem_cons_of_mem l hm)
    simp only [removeDupAux]
    by_cases hl : startsWith l headerMark = true
    · rw [if_pos hl]
      by_cases heq : l = hdr
      · subst heq
        rw [hthdr]
        by_cases hm : l ∈ seen
        · rw [if_pos hm, ih seen hnear', if_pos hm, if_pos hm]
        · rw [if_neg hm, if_neg hm, List.count_cons, beq_self_eq_true, if_pos rfl,
            ih (l :: seen) hnear', if_pos (List.mem_cons_self l seen),
            List.count_cons, beq_self_eq_true, if_pos rfl]
          omega
      · have htne : trim l ≠ hdr := fun h => heq (hnear l (List.mem_cons_self l ls) h)
        have hbeq : (l == hdr) = false := beq_eq_false_iff_ne.mpr heq
        by_cases hm : trim l ∈ seen
        · rw [if_pos hm, ih seen hnear', List.count_cons, hbeq]
          simp only [Bool.false_eq_true, if_false, Nat.add_zero]
        · rw [if_neg hm, List.count_cons, hbeq,
            List.count_cons, hbeq, ih (trim l :: seen) hnear']
          simp only [Bool.false_eq_true, if_false, Nat.add_zero]
          have h7 : (hdr ∈ trim l :: seen) ↔ hdr ∈ seen := by
            constructor
            · intro h8
              rcases List.mem_cons.mp h8 with h9 | h9
              · exact absurd h9.symm htne
              · exact h9
            · exact List.mem_cons_of_mem _
          by_cases hs : hdr ∈ seen
          · rw [if_pos (h7.mpr hs), if_pos hs]
          · rw [if_neg (fun h8 => hs (h7.mp h8)), if_neg hs]
    · rw [if_neg hl]
      have hlh : (l == hdr) = false := beq_eq_false_iff_ne.mpr (by
        intro h2
        rw [h2, hmark] at hl
        exact hl rfl)
      rw [List.count_cons, hlh, List.count_cons, hlh, ih seen hnear']
      simp only [Bool.false_eq_true, if_false, Nat.add_zero]

theorem mem_splitNl_unlines {ls : List (List Char)} {l : List Char}
    (hnl : ∀ m ∈ ls, nl ∉ m) (h : l ∈ splitNl (unlines ls)) : l = [] ∨ l ∈ ls := by
  cases ls with
  | nil =>
    left
    rw [unlines_nil, splitNl_nil] at h
    simpa using h
  | cons m ms =>
    right
    rwa [splitNl_unlines hnl (by simp)] at h

/-- C4 (amended): a destination holding the same version-header line twice
collapses to one occurrence of that line under a merge cycle, provided the
new entry's header does not already occur in the destination (when it does,
for instance when it equals the duplicated header, the run short-circuits
before deduplicating and both copies survive); side conditions exclude
distinct lines that whitespace-trim into the duplicated header line. -/
theorem dedupCollapsesHeader (d : List Char) (e : Entry) (hdr : List Char)
    (hmark : startsWith hdr headerMark = true)
    (hthdr : trim hdr = hdr)
    (hcount : (splitNl d).count hdr = 2)
    (hnear : ∀ l ∈ splitNl d, trim l = hdr → l = hdr)
    (hnew : strIncludes d e.version = false)
    (hfull : ∀ l ∈ splitNl e.full, trim l ≠ hdr) :
    (splitNl (merge d e)).count hdr = 1 := by
  have hne : hdr ≠ [] := by
    intro h2
    rw [h2] at hmark
    exact absurd hmark (by decide)
  have hclSplit := splitNl_removeDuplicateHeaders d
  have hclCount : (splitNl (removeDuplicateHeaders d)).count hdr = 1 := by
    rw [hclSplit, count_removeDupAux hmark hthdr (splitNl d) [] hnear,
      if_neg (List.not_mem_nil hdr), hcount]
    rfl
  have hclSub : (splitNl (removeDuplicateHeaders d)).Sublist (splitNl d) := by
    rw [hclSplit]
    exact removeDupAux_sublist [] (splitNl d)
  have hnearCl : ∀ l ∈ splitNl (removeDuplicateHeaders d), trim l = hdr → l = hdr :=
    fun l hl => hnear l (hclSub.subset hl)
  have hclNl : ∀ l ∈ splitNl (removeDuplicateHeaders d), nl ∉ l :=
    fun l hl => nl_not_mem_splitNl (hclSub.subset hl)
  have hfullCount : (splitNl e.full).count hdr = 0 :=
    List.count_eq_zero.mpr (fun hmem => hfull hdr hmem hthdr)
  have hfullNe : ∀ l ∈ splitNl e.full, ¬ l = hdr := by
    intro l hl h2
    exact hfull l hl (by rw [h2, hthdr])
  rw [merge_eq, hnew]
  simp only [Bool.false_eq_true, if_false]
  by_cases hov : strIncludes (removeDuplicateHeaders d) ovMark = true
  · rw [if_pos hov, insertReleaseIntoDocs_eq]
    have htknl : ∀ m ∈ (splitNl (removeDuplicateHeaders d)).take
        (findInsertIndex (splitNl (removeDuplicateHeaders d)) false false 0 0), nl ∉ m :=
      fun m hm => hclNl m (List.take_subset _ _ hm)
    have hdpnl : ∀ m ∈ (splitNl (removeDuplicateHeaders d)).drop
        (findInsertIndex (splitNl (removeDuplicateHeaders d)) false false 0 0), nl ∉ m :=
      fun m hm => hclNl m (List.drop_subset _ _ hm)
    have hXlines : splitNl (unlines ((splitNl (removeDuplicateHeaders d)).take
          (findInsertIndex (splitNl (removeDuplicateHeaders d)) false false 0 0)) ++
        nl :: nl :: e.full ++ nl :: nl ::
        unlines ((splitNl (removeDuplicateHeaders d)).drop
          (findInsertIndex (splitNl (removeDuplicateHeaders d)) false false 0 0))) =
        (splitNl (unlines ((splitNl (removeDuplicateHeaders d)).take
          (findInsertIndex (splitNl (removeDuplicateHeaders d)) false false 0 0))) ++
        [] :: splitNl e.full) ++ [] ::
        splitNl (unlines ((splitNl (removeDuplicateHeaders d)).drop
          (findInsertIndex (splitNl (removeDuplicateHeaders d)) false false 0 0))) := by
      rw [splitNl_append_nl, splitNl_cons_nl, splitNl_append_nl, splitNl_cons_nl]
    have hXnear : ∀ l ∈ splitNl (unlines ((splitNl (removeDuplicateHeaders d)).take
          (findInsertIndex (splitNl (removeDuplicateHeaders d)) false false 0 0)) ++
        nl :: nl :: e.full ++ nl :: nl ::
        unlines ((splitNl (removeDuplicateHeaders d)).drop
          (findInsertIndex (splitNl (removeDuplicateHeaders d)) false false 0 0))),
        trim l = hdr → l = hdr := by
      intro l hl ht
      rw [hXlines] at hl
      rcases List.mem_append.mp hl with h2 | h2
      · rcases List.mem_append.mp h2 with h3 | h3
        · rcases mem_splitNl_unlines htknl h3 with h4 | h4
          · subst h4
            exact absurd ht.symm hne
          · exact hnearCl l (List.take_subset _ _ h4) ht
        · rcases List.mem_cons.mp h3 with h4 | h4
          · subst h4
            exact absurd ht.symm hne
          · exact absurd ht (hfull l h4)
      · rcases List.mem_cons.mp h2 with h3 | h3
        · subst h3
          exact absurd ht.symm hne
        · rcases mem_splitNl_unlines hdpnl h3 with h4 | h4
          · subst h4
            exact absurd ht.symm hne
          · exact hnearCl l (List.drop_subset _ _ h4) ht
    have hsum : (((splitNl (removeDuplicateHeaders d)).take
          (findInsertIndex (splitNl (removeDuplicateHeaders d)) false false 0 0)).count hdr) +
        (((splitNl (removeDuplicateHeaders d)).drop
          (findInsertIndex (splitNl (removeDuplicateHeaders d)) false false 0 0)).count hdr) =
          1 := by
      rw [← List.count_append, List.take_append_drop]
      exact hclCount
    rw [count_splitNl_trim hne hthdr hXnear, hXlines, List.count_append, List.count_append,
      List.count_cons, List.count_cons,
      count_splitNl_unlines hne htknl, count_splitNl_unlines hne hdpnl,
      beq_eq_false_iff_ne.mpr (fun h2 : ([] : List Char) = hdr => hne h2.symm), hfullCount]
    simp only [Bool.false_eq_true, if_false, Nat.add_zero, Nat.zero_add]
    omega
  · rw [if_neg hov]
    have hXlines : splitNl (e.full ++ nl :: nl :: removeDuplicateHeaders d) =
        splitNl e.full ++ [] :: splitNl (removeDuplicateHeaders d) := by
      rw [splitNl_append_nl, splitNl_cons_nl]
    have hXnear : ∀ l ∈ splitNl (e.full ++ nl :: nl :: removeDuplicateHeaders d),
        trim l = hdr → l = hdr := by
      intro l hl ht
      rw [hXlines] at hl
      rcases List.mem_append.mp hl with h2 | h2
      · exact absurd ht (hfull l h2)
      · rcases List.mem_cons.mp h2 with h3 | h3
        · subst h3
          exact absurd ht.symm hne
        · exact hnearCl l h3 ht
    rw [count_splitNl_trim hne hthdr hXnear, hXlines, List.count_append, List.count_cons,
      hfullCount, beq_eq_false_iff_ne.mpr (fun h2 => hne h2.symm), hclCount]
    simp

/-- Witness for C4 (amended) at a destination with a duplicated `## [1.0.0]`
header and a fresh `## [2.0.0]` entry. -/
theorem dedupCollapsesHeader_witness :
    (splitNl (merge (toL "## [1.0.0]\nfirst\n## [1.0.0]\nsecond")
        (parseChangelog (toL "## [2.0.0]\n- note")))).count (toL "## [1.0.0]") = 1 :=
  dedupCollapsesHeader _ _ _ (by decide) (by decide) (by decide) (by decide)
    (by decide) (by decide)

/-! The insertion-index loop of `insertReleaseIntoDocs`, phase by phase. -/

theorem header_not_ov {h : List Char} (hh : startsWith h headerMark = true) :
    startsWith h ovMark = false := by
  rw [Bool.eq_false_iff]
  intro h2
  rcases List.prefix_or_prefix_of_prefix (startsWith_iff.mp hh) (startsWith_iff.mp h2)
    with h3 | h3
  · exact absurd h3 (by decide)
  · exact absurd h3 (by decide)

theorem findInsertIndex_pre : ∀ (pre rest : List (List Char)),
    (∀ l ∈ pre, trim l ≠ dashes) → (∀ l ∈ pre, startsWith l ovMark = false) →
    ∀ idx i, findInsertIndex (pre ++ rest) false false idx i =
      findInsertIndex rest false false idx (i + pre.length) := by
  intro pre
  induction pre with
  | nil => intro rest _ _ idx i; simp
  | cons l pre ih =>
    intro rest hd1 ho1 idx i
    rw [List.cons_append]
    simp only [findInsertIndex]
    rw [if_neg (hd1 l (List.mem_cons_self l pre)), ho1 l (List.mem_cons_self l pre)]
    simp only [Bool.not_false, Bool.true_and, Bool.false_eq_true, if_false,
      Bool.false_and]
    rw [ih rest (fun m hm => hd1 m (List.mem_cons_of_mem l hm))
      (fun m hm => ho1 m (List.mem_cons_of_mem l hm)) idx (i + 1)]
    congr 1
    simp only [List.length_cons]
    omega

theorem findInsertIndex_ov {ov : List Char} (rest : List (List Char))
    (hdash : trim ov ≠ dashes) (hov : startsWith ov ovMark = true) (idx i : Nat) :
    findInsertIndex (ov :: rest) false false idx i =
      findInsertIndex rest false true i (i + 1) := by
  simp only [findInsertIndex]
  rw [if_neg hdash, hov]
  simp

theorem findInsertIndex_mid : ∀ (mid : List (List Char)), mid ≠ [] →
    (∀ l ∈ mid, trim l ≠ dashes) → (∀ l ∈ mid, startsWith l ovMark = false) →
    (∀ l ∈ mid, startsWith l headerMark = false) →
    ∀ (rest : List (List Char)) (idx i : Nat),
    findInsertIndex (mid ++ rest) false true idx i =
      findInsertIndex rest false true (i + mid.length) (i + mid.length) := by
  intro mid
  induction mid with
  | nil => intro h; exact absurd rfl h
  | cons l mid ih =>
    intro _ hd1 ho1 hh1 rest idx i
    rw [List.cons_append]
    simp only [findInsertIndex]
    rw [if_neg (hd1 l (List.mem_cons_self l mid)), ho1 l (List.mem_cons_self l mid),
      hh1 l (List.mem_cons_self l mid)]
    simp only [Bool.not_false, Bool.true_and, Bool.false_eq_true, if_false,
      Bool.and_false, Bool.true_and, if_true]
    cases mid with
    | nil => simp
    | cons m mid' =>
      rw [ih (by simp) (fun x hx => hd1 x (List.mem_cons_of_mem l hx))
        (fun x hx => ho1 x (List.mem_cons_of_mem l hx))
        (fun x hx => hh1 x (List.mem_cons_of_mem l hx)) rest (i + 1) (i + 1)]
      have harith : (i + 1) + (m :: mid').length = i + (l :: m :: mid').length := by
        simp only [List.length_cons]
        omega
      rw [harith]

theorem findInsertIndex_header {h : List Char} (post : List (List Char))
    (hdash : trim h ≠ dashes) (hh : startsWith h headerMark = true) (idx i : Nat) :
    findInsertIndex (h :: post) false true idx i = idx := by
  simp only [findInsertIndex]
  rw [if_neg hdash, header_not_ov hh, hh]
  simp

/-! The front-matter phase of the index loop, and the merge step after the
deduplication pass. -/

theorem findInsertIndex_fmBody : ∀ (fmb rest : List (List Char)),
    (∀ l ∈ fmb, trim l ≠ dashes) → ∀ idx i,
    findInsertIndex (fmb ++ rest) true false idx i =
      findInsertIndex rest true false idx (i + fmb.length) := by
  intro fmb
  induction fmb with
  | nil => intro rest _ idx i; simp
  | cons l fmb ih =>
    intro rest hd1 idx i
    rw [List.cons_append]
    simp only [findInsertIndex]
    rw [if_neg (hd1 l (List.mem_cons_self l fmb))]
    simp only [Bool.not_true, Bool.false_and, Bool.false_eq_true, if_false]
    rw [ih rest (fun m hm => hd1 m (List.mem_cons_of_mem l hm)) idx (i + 1)]
    congr 1
    simp only [List.length_cons]
    omega

theorem findInsertIndex_fm {fm : List (List Char)} (hfm : FrontMatter fm) :
    ∀ (rest : List (List Char)) (idx i : Nat),
    findInsertIndex (fm ++ rest) false false idx i =
      findInsertIndex rest false false idx (i + fm.length) := by
  intro rest idx i
  rcases hfm with h | ⟨f, b, g, hsh, h1, h2, h3⟩
  · rw [h]; simp
  · subst hsh
    rw [List.cons_append]
    simp only [findInsertIndex]
    rw [if_pos h1]
    simp only [Bool.not_false, List.append_eq]
    rw [List.append_assoc, List.singleton_append,
      findInsertIndex_fmBody b (g :: rest) h3 idx (i + 1)]
    simp only [findInsertIndex]
    rw [if_pos h2]
    simp only [Bool.not_true]
    congr 1
    simp only [List.length_cons, List.length_append, List.length_nil]
    omega

theorem merge_unfold_after_dedup {d : List Char} {e : Entry}
    (hnew : strIncludes d e.version = false)
    (hov : strIncludes (removeDuplicateHeaders d) ovMark = true) :
    merge d e = insertReleaseIntoDocs (removeDuplicateHeaders d) e := by
  rw [merge_eq, hnew]
  simp only [Bool.false_eq_true, if_false]
  rw [if_pos hov]

theorem trim_of_startsWith_head {l : List Char} {c : Char} {t : List Char}
    (h : startsWith l (c :: t) = true) (hc : isWS c = false) :
    ∃ u, trim l = c :: u := by
  obtain ⟨r, hr⟩ := startsWith_iff.mp h
  have hl : l = c :: (t ++ r) := by rw [← hr]; rfl
  have hL : trimL l = l := by rw [hl]; exact trimL_cons_of_not_ws _ hc
  have hne : trim l ≠ [] := by
    intro hall
    rw [trim_eq_nil_iff] at hall
    have h4 := hall c (by rw [hl]; exact List.mem_cons_self _ _)
    rw [hc] at h4
    exact Bool.false_ne_true h4
  obtain ⟨c', u, hcu⟩ := List.exists_cons_of_ne_nil hne
  have h5 : trim l = trimR l := by rw [trim, hL]
  have hpr : trim l <+: l := by
    rw [h5]
    exact trimR_pre l
  obtain ⟨w, hw⟩ := hpr
  rw [hcu, hl, List.cons_append] at hw
  have h6 : c' = c := (List.cons.injEq .. ▸ hw).1
  exact ⟨u, by rw [hcu, h6]⟩

theorem trim_header_ne_dashes {l : List Char} (h : startsWith l headerMark = true) :
    trim l ≠ dashes := by
  obtain ⟨u, hu⟩ := trim_of_startsWith_head (c := '#') (t := "# [".toList)
    (by rw [show ('#' :: "# [".toList) = headerMark from by decide]; exact h) (by decide)
  rw [hu]
  intro h2
  exact absurd (List.cons.injEq .. ▸ h2).1 (by decide)

theorem trim_ov_ne_dashes {l : List Char} (h : startsWith l ovMark = true) :
    trim l ≠ dashes := by
  obtain ⟨u, hu⟩ := trim_of_startsWith_head (c := '#') (t := "# Overview".toList)
    (by rw [show ('#' :: "# Overview".toList) = ovMark from by decide]; exact h) (by decide)
  rw [hu]
  intro h2
  exact absurd (List.cons.injEq .. ▸ h2).1 (by decide)

theorem trimR_eq_self_of_rev {X : List Char} {c : Char} {t : List Char}
    (h : X.reverse = c :: t) (hc : isWS c = false) : trimR X = X := by
  unfold trimR
  rw [h, List.dropWhile_cons, hc]
  simp [← h]

theorem unlines_cons₂_ne_nil (l₁ l₂ : List Char) (ls : List (List Char)) :
    unlines (l₁ :: l₂ :: ls) ≠ [] := by
  rw [unlines_cons₂]
  cases l₁ with
  | nil => simp
  | cons c t => simp

theorem unlines_ne_nil {ls : List (List Char)} (h : 1 < ls.length) : unlines ls ≠ [] := by
  cases ls with
  | nil => simp at h
  | cons l₁ t =>
    cases t with
    | nil => simp at h
    | cons l₂ ls' => exact unlines_cons₂_ne_nil l₁ l₂ ls'

theorem findInsertIndex_mid_end (mid : List (List Char)) (h1 : mid ≠ [])
    (h2 : ∀ l ∈ mid, trim l ≠ dashes) (h3 : ∀ l ∈ mid, startsWith l ovMark = false)
    (h4 : ∀ l ∈ mid, startsWith l headerMark = false) (idx i : Nat) :
    findInsertIndex mid false true idx i = i + mid.length := by
  have h5 := findInsertIndex_mid mid h1 h2 h3 h4 [] idx i
  rw [List.append_nil] at h5
  rw [h5]
  rfl

/-- The Overview insertion shape, stated on the deduplicated destination:
with an optional front-matter block, a prologue, the first Overview line, a
non-empty content block and a later version header, the entry lands
immediately before that header, with one blank line on each side. -/
theorem mergeAfterOverview (d : List Char) (fm pre mid post : List (List Char))
    (ov hd : List Char) (e : Entry)
    (hfm : FrontMatter fm)
    (hclean : splitNl (removeDuplicateHeaders d) = fm ++ pre ++ ov :: mid ++ hd :: post)
    (hpred : ∀ l ∈ pre, trim l ≠ dashes)
    (hpreov : ∀ l ∈ pre, startsWith l ovMark = false)
    (hmidd : ∀ l ∈ mid, trim l ≠ dashes)
    (hmidov : ∀ l ∈ mid, startsWith l ovMark = false)
    (hmidhd : ∀ l ∈ mid, startsWith l headerMark = false)
    (hmidne : mid ≠ [])
    (hov : startsWith ov ovMark = true)
    (hhd : startsWith hd headerMark = true)
    (hnew : strIncludes d e.version = false)
    (htd : trim (removeDuplicateHeaders d) = removeDuplicateHeaders d) :
    splitNl (merge d e) =
      fm ++ pre ++ ov :: mid ++ [] :: splitNl e.full ++ [] :: hd :: post := by
  have hovmem : ov ∈ fm ++ pre ++ ov :: mid ++ hd :: post :=
    List.mem_append_left _ (List.mem_append.mpr (Or.inr (List.mem_cons_self _ _)))
  have hcl_eq : removeDuplicateHeaders d =
      unlines (fm ++ pre ++ ov :: mid ++ hd :: post) := by
    rw [← hclean, unlines_splitNl]
  have hovd : strIncludes (removeDuplicateHeaders d) ovMark = true := by
    apply strIncludes_iff.mpr
    apply (startsWith_iff.mp hov).isInfix.trans
    rw [hcl_eq]
    exact infix_unlines_of_mem hovmem
  rw [merge_unfold_after_dedup hnew hovd, insertReleaseIntoDocs_eq, hclean]
  have hlnl : ∀ l ∈ fm ++ pre ++ ov :: mid ++ hd :: post, nl ∉ l := by
    intro l hl
    apply nl_not_mem_splitNl (s := removeDuplicateHeaders d)
    rw [hclean]
    exact hl
  have hidx : findInsertIndex (fm ++ pre ++ ov :: mid ++ hd :: post) false false 0 0 =
      (fm ++ pre ++ ov :: mid).length := by
    rw [show ((fm ++ pre) ++ (ov :: mid)) ++ (hd :: post) =
        fm ++ (pre ++ ov :: (mid ++ hd :: post)) from by
      simp [List.append_assoc],
      findInsertIndex_fm hfm (pre ++ ov :: (mid ++ hd :: post)) 0 0,
      findInsertIndex_pre pre _ hpred hpreov 0 _,
      findInsertIndex_ov _ (trim_ov_ne_dashes hov) hov,
      findInsertIndex_mid mid hmidne hmidd hmidov hmidhd (hd :: post),
      findInsertIndex_header post (trim_header_ne_dashes hhd) hhd]
    simp only [List.length_append, List.length_cons]
    omega
  rw [hidx, List.take_left, List.drop_left]
  have hd_split : unlines (fm ++ pre ++ ov :: mid ++ hd :: post) =
      unlines (fm ++ pre ++ ov :: mid) ++ nl :: unlines (hd :: post) :=
    unlines_append (by simp) (by simp)
  have htd2 : trim (unlines (fm ++ pre ++ ov :: mid) ++ nl :: unlines (hd :: post)) =
      unlines (fm ++ pre ++ ov :: mid) ++ nl :: unlines (hd :: post) := by
    rw [← hd_split, ← hcl_eq]
    exact htd
  have hmidlen : 0 < mid.length := List.length_pos.mpr hmidne
  have hBne : unlines (fm ++ pre ++ ov :: mid) ≠ [] := by
    apply unlines_ne_nil
    simp only [List.length_append, List.length_cons]
    omega
  obtain ⟨b0, B', hB⟩ := List.exists_cons_of_ne_nil hBne
  have hb0 : isWS b0 = false := by
    apply head_not_ws_of_trim htd2
    rw [hB, List.cons_append]
  have hAne : (unlines (hd :: post)).reverse ≠ [] := by
    intro h0
    rw [List.reverse_eq_nil_iff] at h0
    rw [h0] at htd2
    have h2 := trimR_eq_self_of_trim htd2
    rw [trimR_append_ws (w := [nl]) (by decide)] at h2
    have h3 := congrArg List.length h2
    have h4 := length_trimR_le (unlines (fm ++ pre ++ ov :: mid))
    simp only [List.length_append, List.length_cons, List.length_nil] at h3
    omega
  obtain ⟨a0, A', hA⟩ := List.exists_cons_of_ne_nil hAne
  have ha0 : isWS a0 = false := by
    apply getLast_not_ws_of_trim htd2
      (t := (A' ++ [nl]) ++ (unlines (fm ++ pre ++ ov :: mid)).reverse)
    rw [List.reverse_append, List.reverse_cons, hA, List.cons_append, List.cons_append]
  have hXcons : unlines (fm ++ pre ++ ov :: mid) ++ nl :: nl :: e.full ++
      nl :: nl :: unlines (hd :: post) =
      b0 :: ((B' ++ nl :: nl :: e.full) ++ nl :: nl :: unlines (hd :: post)) := by
    rw [hB, List.cons_append, List.cons_append]
  have hArev : trimR (nl :: nl :: unlines (hd :: post)) =
      nl :: nl :: unlines (hd :: post) := by
    apply trimR_eq_self_of_rev (c := a0) (t := (A' ++ [nl]) ++ [nl]) _ ha0
    rw [List.reverse_cons, List.reverse_cons, hA, List.cons_append, List.cons_append]
  have hXR : trimR (unlines (fm ++ pre ++ ov :: mid) ++ nl :: nl :: e.full ++
      nl :: nl :: unlines (hd :: post)) =
      unlines (fm ++ pre ++ ov :: mid) ++ nl :: nl :: e.full ++
      nl :: nl :: unlines (hd :: post) := by
    rw [trimR_append, hArev, if_neg (fun h0 => List.noConfusion h0)]
  have hXL : trimL (unlines (fm ++ pre ++ ov :: mid) ++ nl :: nl :: e.full ++
      nl :: nl :: unlines (hd :: post)) =
      unlines (fm ++ pre ++ ov :: mid) ++ nl :: nl :: e.full ++
      nl :: nl :: unlines (hd :: post) := by
    rw [hXcons]
    exact trimL_cons_of_not_ws _ hb0
  rw [trim, hXL, hXR]
  have hm1 : ∀ m ∈ fm ++ pre ++ ov :: mid, nl ∉ m :=
    fun m hm => hlnl m (List.mem_append_left _ hm)
  have hm2 : ∀ m ∈ hd :: post, nl ∉ m :=
    fun m hm => hlnl m (List.mem_append.mpr (Or.inr hm))
  rw [splitNl_append_nl, splitNl_cons_nl, splitNl_append_nl, splitNl_cons_nl,
    splitNl_unlines hm1 (by simp), splitNl_unlines hm2 (by simp)]

/-- The Overview insertion shape with no later version header, stated on the
deduplicated destination: the entry is appended after the Overview content
block, separated by one blank line, the trailing separator trimmed away. -/
theorem mergeAtOverviewEnd (d : List Char) (fm pre mid : List (List Char))
    (ov : List Char) (e : Entry)
    (hfm : FrontMatter fm)
    (hclean : splitNl (removeDuplicateHeaders d) = fm ++ pre ++ ov :: mid)
    (hpred : ∀ l ∈ pre, trim l ≠ dashes)
    (hpreov : ∀ l ∈ pre, startsWith l ovMark = false)
    (hmidd : ∀ l ∈ mid, trim l ≠ dashes)
    (hmidov : ∀ l ∈ mid, startsWith l ovMark = false)
    (hmidhd : ∀ l ∈ mid, startsWith l headerMark = false)
    (hmidne : mid ≠ [])
    (hov : startsWith ov ovMark = true)
    (hnew : strIncludes d e.version = false)
    (hfe : trim e.full = e.full) (hfne : e.full ≠ [])
    (htd : trim (removeDuplicateHeaders d) = removeDuplicateHeaders d) :
    splitNl (merge d e) = fm ++ pre ++ ov :: mid ++ [] :: splitNl e.full := by
  have hovmem : ov ∈ fm ++ pre ++ ov :: mid :=
    List.mem_append.mpr (Or.inr (List.mem_cons_self _ _))
  have hcl_eq : removeDuplicateHeaders d = unlines (fm ++ pre ++ ov :: mid) := by
    rw [← hclean, unlines_splitNl]
  have hovd : strIncludes (removeDuplicateHeaders d) ovMark = true := by
    apply strIncludes_iff.mpr
    apply (startsWith_iff.mp hov).isInfix.trans
    rw [hcl_eq]
    exact infix_unlines_of_mem hovmem
  rw [merge_unfold_after_dedup hnew hovd, insertReleaseIntoDocs_eq, hclean]
  have hlnl : ∀ l ∈ fm ++ pre ++ ov :: mid, nl ∉ l := by
    intro l hl
    apply nl_not_mem_splitNl (s := removeDuplicateHeaders d)
    rw [hclean]
    exact hl
  have hidx : findInsertIndex (fm ++ pre ++ ov :: mid) false false 0 0 =
      (fm ++ pre ++ ov :: mid).length := by
    rw [show (fm ++ pre) ++ (ov :: mid) = fm ++ (pre ++ ov :: mid) from by
      simp [List.append_assoc],
      findInsertIndex_fm hfm (pre ++ ov :: mid) 0 0,
      findInsertIndex_pre pre _ hpred hpreov 0 _,
      findInsertIndex_ov _ (trim_ov_ne_dashes hov) hov,
      findInsertIndex_mid_end mid hmidne hmidd hmidov hmidhd]
    simp only [List.length_append, List.length_cons]
    omega
  rw [hidx, List.take_length, List.drop_length, unlines_nil]
  have htd2 : trim (unlines (fm ++ pre ++ ov :: mid)) =
      unlines (fm ++ pre ++ ov :: mid) := by
    rw [← hcl_eq]
    exact htd
  have hmidlen : 0 < mid.length := List.length_pos.mpr hmidne
  have hBne : unlines (fm ++ pre ++ ov :: mid) ≠ [] := by
    apply unlines_ne_nil
    simp only [List.length_append, List.length_cons]
    omega
  obtain ⟨b0, B', hB⟩ := List.exists_cons_of_ne_nil hBne
  have hb0 : isWS b0 = false := head_not_ws_of_trim htd2 hB
  have hfrevne : e.full.reverse ≠ [] := by
    intro h0
    rw [List.reverse_eq_nil_iff] at h0
    exact hfne h0
  obtain ⟨f0, F', hF⟩ := List.exists_cons_of_ne_nil hfrevne
  have hf0 : isWS f0 = false := getLast_not_ws_of_trim hfe hF
  have hfullR : trimR (nl :: nl :: e.full) = nl :: nl :: e.full := by
    apply trimR_eq_self_of_rev (c := f0) (t := (F' ++ [nl]) ++ [nl]) _ hf0
    rw [List.reverse_cons, List.reverse_cons, hF, List.cons_append, List.cons_append]
  have hXR : trimR (unlines (fm ++ pre ++ ov :: mid) ++ nl :: nl :: e.full ++
      nl :: nl :: []) =
      unlines (fm ++ pre ++ ov :: mid) ++ nl :: nl :: e.full := by
    rw [trimR_append, if_pos (by decide), trimR_append, hfullR,
      if_neg (fun h0 => List.noConfusion h0)]
  have hXL : trimL (unlines (fm ++ pre ++ ov :: mid) ++ nl :: nl :: e.full ++
      nl :: nl :: []) =
      unlines (fm ++ pre ++ ov :: mid) ++ nl :: nl :: e.full ++ nl :: nl :: [] := by
    rw [show unlines (fm ++ pre ++ ov :: mid) ++ nl :: nl :: e.full ++ nl :: nl :: [] =
        b0 :: ((B' ++ nl :: nl :: e.full) ++ nl :: nl :: []) from by
      rw [hB, List.cons_append, List.cons_append]]
    exact trimL_cons_of_not_ws _ hb0
  rw [trim, hXL, hXR, splitNl_append_nl, splitNl_cons_nl,
    splitNl_unlines hlnl (by
      intro h0
      exact List.noConfusion (List.append_eq_nil.mp h0).2)]

/-- C5 (amended): after the deduplication pass, if the destination splits as an
optional `---`-delimited front-matter block, prologue lines, the first Overview
line outside the front matter, and a non-empty Overview content block, the new
entry — whose header does not yet occur in the destination — is inserted
immediately before the first version-header line following that content block,
or appended at the end of the block if no later header exists, separated by
exactly one blank line before the entry and one blank line after it (the splice
is `\n\n` on each side; a trailing separator at end of document is trimmed
away), not two. Provisos: no prologue or content-block line trims to `---` or
starts another Overview marker, and the deduplicated destination carries no
surrounding whitespace, as the code trims its own output. -/
theorem overviewPlacement :
    (∀ (d : List Char) (fm pre mid post : List (List Char)) (ov hd : List Char)
        (e : Entry),
      FrontMatter fm →
      splitNl (removeDuplicateHeaders d) = fm ++ pre ++ ov :: mid ++ hd :: post →
      (∀ l ∈ pre, trim l ≠ dashes) →
      (∀ l ∈ pre, startsWith l ovMark = false) →
      (∀ l ∈ mid, trim l ≠ dashes) →
      (∀ l ∈ mid, startsWith l ovMark = false) →
      (∀ l ∈ mid, startsWith l headerMark = false) →
      mid ≠ [] →
      startsWith ov ovMark = true →
      startsWith hd headerMark = true →
      strIncludes d e.version = false →
      trim (removeDuplicateHeaders d) = removeDuplicateHeaders d →
      splitNl (merge d e) =
        fm ++ pre ++ ov :: mid ++ [] :: splitNl e.full ++ [] :: hd :: post) ∧
    (∀ (d : List Char) (fm pre mid : List (List Char)) (ov : List Char) (e : Entry),
      FrontMatter fm →
      splitNl (removeDuplicateHeaders d) = fm ++ pre ++ ov :: mid →
      (∀ l ∈ pre, trim l ≠ dashes) →
      (∀ l ∈ pre, startsWith l ovMark = false) →
      (∀ l ∈ mid, trim l ≠ dashes) →
      (∀ l ∈ mid, startsWith l ovMark = false) →
      (∀ l ∈ mid, startsWith l headerMark = false) →
      mid ≠ [] →
      startsWith ov ovMark = true →
      strIncludes d e.version = false →
      trim e.full = e.full → e.full ≠ [] →
      trim (removeDuplicateHeaders d) = removeDuplicateHeaders d →
      splitNl (merge d e) = fm ++ pre ++ ov :: mid ++ [] :: splitNl e.full) :=
  ⟨fun d fm pre mid post ov hd e h1 h2 h3 h4 h5 h6 h7 h8 h9 h10 h11 h12 =>
      mergeAfterOverview d fm pre mid post ov hd e h1 h2 h3 h4 h5 h6 h7 h8 h9
        h10 h11 h12,
    fun d fm pre mid ov e h1 h2 h3 h4 h5 h6 h7 h8 h9 h10 h11 h12 h13 =>
      mergeAtOverviewEnd d fm pre mid ov e h1 h2 h3 h4 h5 h6 h7 h8 h9 h10 h11
        h12 h13⟩

/-- Witness for C5: a front-matter destination with a later version header, and
a duplicate-header destination whose Overview block ends the document. -/
theorem overviewPlacement_witness :
    (splitNl (merge
        (toL "---\ntitle: notes\n---\nintro\n## Overview\nSome text\n## [1.0.0]\nOld notes")
        (parseChangelog (toL "## [2.0.0]\n- Added stuff"))) =
      [toL "---", toL "title: notes", toL "---"] ++ [toL "intro"] ++
        toL "## Overview" :: [toL "Some text"] ++
        [] :: splitNl (parseChangelog (toL "## [2.0.0]\n- Added stuff")).full ++
        [] :: toL "## [1.0.0]" :: [toL "Old notes"]) ∧
    (splitNl (merge
        (toL "## [0.1.0] old\nx\n## [0.1.0] old\ny\n## Overview\ntext")
        (parseChangelog (toL "## [2.0.0]\n- Added stuff"))) =
      ([] : List (List Char)) ++ [toL "## [0.1.0] old", toL "x", toL "y"] ++
        toL "## Overview" :: [toL "text"] ++
        [] :: splitNl (parseChangelog (toL "## [2.0.0]\n- Added stuff")).full) :=
  ⟨overviewPlacement.1 _ [toL "---", toL "title: notes", toL "---"] [toL "intro"]
      [toL "Some text"] [toL "Old notes"] _ _ _
      (Or.inr ⟨toL "---", [toL "title: notes"], toL "---", by decide, by decide,
        by decide, by decide⟩)
      (by decide) (by decide) (by decide) (by decide) (by decide) (by decide)
      (by decide) (by decide) (by decide) (by decide) (by decide),
    overviewPlacement.2 _ [] [toL "## [0.1.0] old", toL "x", toL "y"]
      [toL "text"] _ _
      (Or.inl rfl)
      (by decide) (by decide) (by decide) (by decide) (by decide) (by decide)
      (by decide) (by decide) (by decide) (by decide) (by decide) (by decide)⟩
